import Mathlib

/-!
Verification development for the moving-average trading system
(`backend/services/ema_trading.py` and `backend/services/ma_optimizer.py`).

Modelling conventions:
* Python floats are modelled as exact rationals (`ℚ`); all price arithmetic in the
  source is plain `+ - * /` on floats, which the rational model mirrors exactly.
* Dates (pandas timestamps at daily resolution) are modelled as natural numbers;
  `date + pd.Timedelta(days=1)` becomes `d + 1` and `(a - b).days` becomes `a - b : ℤ`.
* A pandas DataFrame row is a `Row`.  The OHLCV columns are always present; the
  indicator columns `ma_21`, `ma_50`, `atr` are `Option ℚ` (`none` models `NaN`,
  and any comparison against `NaN` is `False`, as in pandas/NumPy).
* In-place mutation of the caller's frame (`df['ma_21'] = ...`) is modelled by
  state passing: `run_analysis` returns the frame as it stands after the call.
* Python exceptions that escape a function are modelled by `Option`/`Except`
  results (`none`/`.error` = the call raised).
* The free-text `reasoning` strings are modelled by the inductive `Reasoning`;
  the only observations the source ever makes of these strings are the substring
  tests `'Re-entry' in s`, `'trailing stop' in s.lower()` and
  `'Major trend break' in s`, which distinguish exactly the constructors below.
* Fields marked "ghost" record values of local variables of the source
  (`position_capital`, loop indices) purely for specification purposes; they are
  never read by the executable model, so erasing them recovers the source's
  observable behaviour unchanged.
-/

set_option maxRecDepth 100000

/-- Truncation toward zero, the semantics of Python's `int()` on a float. -/
def pyInt (q : ℚ) : ℤ := if 0 ≤ q then Rat.floor q else -Rat.floor (-q)

/-- One row of the price frame.  `opn` is the `open` column (`open` is a Lean
keyword).  Indicator columns are `none` while not yet computed / `NaN`. -/
structure Row where
  date : ℕ
  opn : ℚ
  high : ℚ
  low : ℚ
  close : ℚ
  volume : ℚ
  ma_21 : Option ℚ := none
  ma_50 : Option ℚ := none
  atr : Option ℚ := none
deriving DecidableEq, Repr

/-- Model of `ma_type` configuration flag ('ema' or 'sma'). -/
inductive MAType
  | ema
  | sma
deriving DecidableEq, Repr

/-- Constructor-time configuration of `MATradingEngine` (defaults as in source). -/
structure MAConfig where
  initial_capital : ℚ := 100000
  atr_period : ℕ := 14
  atr_multiplier : ℚ := 2
  ma_type : MAType := .ema
  ma_21_period : ℕ := 21
  ma_50_period : ℕ := 50
  mean_reversion_threshold : ℚ := 10
  position_sizing_percentage : ℚ := 5
deriving DecidableEq, Repr

/-- Model of `MATradingEngine.__init__`: the fast/slow periods are taken from
`custom_fast_ma`/`custom_slow_ma` only when both are truthy (not `None`, not `0`),
otherwise the defaults 21/50 apply. -/
def resolve_periods : Option ℕ → Option ℕ → ℕ × ℕ
  | some f, some s => if f ≠ 0 ∧ s ≠ 0 then (f, s) else (21, 50)
  | _, _ => (21, 50)

/-- Model of `calculate_ema` tail: `ema[i] = α·x[i] + (1-α)·ema[i-1]`. -/
def emaAux (a : ℚ) (prev : ℚ) : List ℚ → List ℚ
  | [] => []
  | x :: xs =>
    let e := a * x + (1 - a) * prev
    e :: emaAux a e xs

/-- Model of `calculate_ema`: `ewm(span=period, adjust=False).mean()`, i.e. the recursive
EMA with `α = 2/(period+1)` seeded from the first data point. -/
def calculate_ema (period : ℕ) : List ℚ → List ℚ
  | [] => []
  | x :: xs => x :: emaAux (2 / ((period : ℚ) + 1)) x xs

/-- Model of `calculate_sma`: `rolling(window=period).mean()`; `NaN` for the first
`period - 1` entries. -/
def calculate_sma (period : ℕ) (xs : List ℚ) : List (Option ℚ) :=
  (List.range xs.length).map fun i =>
    if i + 1 < period then none
    else some ((((xs.drop (i + 1 - period)).take period).sum) / (period : ℚ))

/-- Model of `calculate_ma`: dispatch on the `ma_type` flag; the EMA branch never
produces `NaN`. -/
def calculate_ma (t : MAType) (period : ℕ) (xs : List ℚ) : List (Option ℚ) :=
  match t with
  | .sma => calculate_sma period xs
  | .ema => (calculate_ema period xs).map some

/-- True-range tail: `max(high-low, |high-prevClose|, |low-prevClose|)`. -/
def trAux (pc : ℚ) : List Row → List ℚ
  | [] => []
  | b :: bs => max (b.high - b.low) (max |b.high - pc| |b.low - pc|) :: trAux b.close bs

/-- True-range series; at bar 0 the shifted close is `NaN`, and the row-wise
`max` skips `NaN`, leaving `high - low`. -/
def true_ranges : List Row → List ℚ
  | [] => []
  | b :: bs => (b.high - b.low) :: trAux b.close bs

/-- Model of `calculate_atr`: EMA (span = `period`, adjust=False) of the true-range series. -/
def calculate_atr (period : ℕ) (rows : List Row) : List ℚ :=
  calculate_ema period (true_ranges rows)

/-- Overwrite the three indicator columns of `rows` with the given columns
(the three `df[...] = ...` assignments of `run_analysis`).  The final catch-all
is unreachable: the columns always have the frame's length. -/
def setCols : List Row → List (Option ℚ) → List (Option ℚ) → List (Option ℚ) → List Row
  | r :: rs, x :: xs, y :: ys, z :: zs =>
    { r with ma_21 := x, ma_50 := y, atr := z } :: setCols rs xs ys zs
  | rs, _, _, _ => rs

/-- The indicator-computation prefix of `run_analysis`:
`df['ma_21']`, `df['ma_50']`, `df['atr']` are assigned in place. -/
def setIndicators (cfg : MAConfig) (rows : List Row) : List Row :=
  let closes := rows.map (·.close)
  setCols rows
    (calculate_ma cfg.ma_type cfg.ma_21_period closes)
    (calculate_ma cfg.ma_type cfg.ma_50_period closes)
    ((calculate_atr cfg.atr_period rows).map some)

/-- The modelled content of the free-text `reasoning`/`exit_signal` strings. -/
inductive Reasoning
  /-- The string "Primary entry: Price … closed above 50 …" -/
  | primaryEntry
  /-- The string "Re-entry #k: Price … closed above 21 … (trend confirmed: 21 MA > 50 MA)";
  contains the substring "Re-entry". -/
  | reentry (k : ℕ)
  /-- The string "Price … closed below 21 …" -/
  | sellBelowFastMA
  /-- The string "Price … hit trailing stop …"; its lowercase form contains "trailing stop". -/
  | sellTrailingStop
  /-- The string "Major trend break: Price … closed below 50 …" -/
  | sellTrendBreak
  /-- The string "End of period - position closed" (only on the forced final closure). -/
  | endOfPeriod
  /-- The string "Price …% above 21-MA during trade - potential mean reversion (overbought)" -/
  | overboughtAlert
deriving DecidableEq, Repr

/-- The substring test `'Re-entry' in signal.reasoning`. -/
def containsReentry : Reasoning → Bool
  | .reentry _ => true
  | _ => false

inductive SignalType
  | BUY
  | SELL
deriving DecidableEq, Repr

/-- Model of `MASignal` dataclass.  `idx` is ghost: the loop index `i` of the bar the
signal was generated on (`date = df.index[i]`). -/
structure MASignal where
  idx : ℕ
  date : ℕ
  signal_type : SignalType
  price : ℚ
  ma_21 : ℚ
  ma_50 : ℚ
  reasoning : Reasoning
  confidence : ℚ
  atr : Option ℚ := none
  trailing_stop : Option ℚ := none
deriving DecidableEq, Repr

/-- Local state of the `_generate_signals` loop. -/
structure SigState where
  in_trade : Bool := false
  current_trailing_stop : Option ℚ := none
  highest_price_since_entry : Option ℚ := none
  last_exit_date : Option ℕ := none
  reentry_count : ℕ := 0
  trend_start_date : Option ℕ := none
deriving DecidableEq, Repr

/-- Model of `i > 0 and df.iloc[i-1]['close'] <= df.iloc[i-1][col]`; a `NaN` (i.e. `none`)
in the indicator column makes the comparison `False`. -/
def prevLE (rows : List Row) (i : ℕ) (f : Row → Option ℚ) : Bool :=
  if 0 < i then
    match rows[i-1]? with
    | some q =>
      match f q with
      | some m => decide (q.close ≤ m)
      | none => false
    | none => false
  else false

/-- Model of `i > 0 and df.iloc[i-1]['close'] >= df.iloc[i-1][col]`. -/
def prevGE (rows : List Row) (i : ℕ) (f : Row → Option ℚ) : Bool :=
  if 0 < i then
    match rows[i-1]? with
    | some q =>
      match f q with
      | some m => decide (m ≤ q.close)
      | none => false
    | none => false
  else false

/-- The new-high test of the exit branch:
`highest_price_since_entry is None or current_price > highest_price_since_entry`. -/
def newHighB (st : SigState) (p : ℚ) : Bool :=
  match st.highest_price_since_entry with
  | none => true
  | some h => decide (h < p)

/-- The high-water mark after the exit branch's update. -/
def updatedHigh (st : SigState) (p : ℚ) : Option ℚ :=
  if newHighB st p then some p else st.highest_price_since_entry

/-- The trailing stop after the exit branch's update: on a new high it is
assigned `highest - ATR * multiplier` outright (no max with the previous
value), otherwise it is left unchanged. -/
def updatedStop (cfg : MAConfig) (st : SigState) (p atr : ℚ) : Option ℚ :=
  if newHighB st p then some (p - atr * cfg.atr_multiplier)
  else st.current_trailing_stop

/-- The SELL decision of the exit branch, in source order: the `close < ma_21`
branch (gated by the cross-down test), else the trailing-stop test against the
freshly updated stop, else the slow-MA trend-break test. -/
def sellReasonOf (cfg : MAConfig) (rows : List Row) (i : ℕ) (st : SigState)
    (p ma21 ma50 atr : ℚ) : Option Reasoning :=
  if decide (p < ma21) then
    (if prevGE rows i (·.ma_21) then some .sellBelowFastMA else none)
  else if (match updatedStop cfg st p atr with
           | some t => decide (p < t)
           | none => false) then
    some .sellTrailingStop
  else if decide (p < ma50) then some .sellTrendBreak
  else none

/-- One iteration of the `_generate_signals` loop at bar `i`: returns the
updated loop state and the signal appended on this bar (if any). -/
def sigStep (cfg : MAConfig) (rows : List Row) (st : SigState) (i : ℕ) :
    SigState × Option MASignal :=
  match rows[i]? with
  | none => (st, none)
  | some r =>
    match r.ma_21, r.ma_50, r.atr with
    | some ma21, some ma50, some atr =>
      let p := r.close
      let is_new_trend := !st.in_trade && decide (ma50 < p) && prevLE rows i (·.ma_50)
      let can_reenter := !st.in_trade && st.last_exit_date.isSome && decide (ma21 < p)
        && decide (ma50 < ma21) && prevLE rows i (·.ma_21)
      if is_new_trend then
        let confidence := min (9/10) (|p - ma50| / ma50 * 10)
        let ts := p - atr * cfg.atr_multiplier
        ({ st with in_trade := true, current_trailing_stop := some ts,
                   highest_price_since_entry := some p, trend_start_date := some r.date,
                   reentry_count := 0 },
         some { idx := i, date := r.date, signal_type := .BUY, price := p, ma_21 := ma21,
                ma_50 := ma50, reasoning := .primaryEntry, confidence := confidence,
                atr := some atr, trailing_stop := some ts })
      else if can_reenter then
        let confidence := min (8/10) (|p - ma21| / ma21 * 10)
        let ts := p - atr * cfg.atr_multiplier
        let rc := st.reentry_count + 1
        ({ st with in_trade := true, current_trailing_stop := some ts,
                   highest_price_since_entry := some p, reentry_count := rc },
         some { idx := i, date := r.date, signal_type := .BUY, price := p, ma_21 := ma21,
                ma_50 := ma50, reasoning := .reentry rc, confidence := confidence,
                atr := some atr, trailing_stop := some ts })
      else if st.in_trade then
        let hps := updatedHigh st p
        let ts := updatedStop cfg st p atr
        match sellReasonOf cfg rows i st p ma21 ma50 atr with
        | some rsn =>
          let confidence := min (9/10) (|p - ma21| / ma21 * 10)
          ({ st with in_trade := false, last_exit_date := some r.date,
                     current_trailing_stop := none, highest_price_since_entry := none },
           some { idx := i, date := r.date, signal_type := .SELL, price := p, ma_21 := ma21,
                  ma_50 := ma50, reasoning := rsn, confidence := confidence,
                  atr := some atr, trailing_stop := ts })
        | none =>
          ({ st with highest_price_since_entry := hps, current_trailing_stop := ts }, none)
      else (st, none)
    | _, _, _ => (st, none)

/-- Loop start: `max(ma_50_period, atr_period)`. -/
def start_index (cfg : MAConfig) : ℕ := max cfg.ma_50_period cfg.atr_period

/-- The `_generate_signals` loop over the listed bar indices. -/
def genLoop (cfg : MAConfig) (rows : List Row) : SigState → List ℕ → List MASignal
  | _, [] => []
  | st, i :: is =>
    match sigStep cfg rows st i with
    | (st', some s) => s :: genLoop cfg rows st' is
    | (st', none) => genLoop cfg rows st' is

/-- Model of `_generate_signals`: iterate the state machine over bars
`start_index … len(df)-1`. -/
def generate_signals (cfg : MAConfig) (rows : List Row) : List MASignal :=
  genLoop cfg rows {} (List.range' (start_index cfg) (rows.length - start_index cfg))

/-- Instrumentation: the generator's loop state just before processing bar
`upto` (i.e. after the bars `start_index … upto-1`). -/
def sigStateBefore (cfg : MAConfig) (rows : List Row) (upto : ℕ) : SigState :=
  (List.range' (start_index cfg) (upto - start_index cfg)).foldl
    (fun st i => (sigStep cfg rows st i).1) {}

/-- Model of `ExitReason` label space: the three strings assigned by `_execute_trades`
('MA Signal', 'Trailing Stop', 'Trend Break') plus the spec's "END_OF_PERIOD"
label (which the source never assigns). -/
inductive ExitReason
  | maSignal
  | trailingStop
  | trendBreak
  | endOfPeriod
deriving DecidableEq, Repr

/-- The exit-reason classification of `_execute_trades`:
`'trailing stop' in reasoning.lower()`, then `'Major trend break' in reasoning`,
else 'MA Signal'. -/
def classify_exit : Reasoning → ExitReason
  | .sellTrailingStop => .trailingStop
  | .sellTrendBreak => .trendBreak
  | _ => .maSignal

/-- Model of `MATrade` dataclass.  `exit_idx` and `alloc` are ghost fields: the frame
index of the exit bar and the local variable `position_capital` at entry. -/
structure MATrade where
  entry_date : ℕ
  exit_date : Option ℕ
  entry_price : ℚ
  exit_price : Option ℚ
  entry_signal : Reasoning
  exit_signal : Reasoning
  shares : ℤ
  pnl : Option ℚ
  pnl_percent : Option ℚ
  duration_days : Option ℤ
  exit_reason : Option ExitReason := none
  is_reentry : Bool := false
  reentry_count : ℕ := 0
  exit_idx : ℕ := 0
  alloc : ℚ := 0
deriving DecidableEq, Repr

/-- The executor's `current_position` dict.  `sig_idx`, `entry_idx` and `alloc`
are ghost fields (the BUY signal's frame index, the entry bar's index and the
local `position_capital`). -/
structure Position where
  entry_date : ℕ
  entry_price : ℚ
  entry_signal : Reasoning
  shares : ℤ
  is_reentry : Bool
  reentry_count : ℕ
  sig_idx : ℕ
  entry_idx : ℕ
  alloc : ℚ
deriving DecidableEq, Repr

/-- Model of `date_to_index`: the dict comprehension maps each date to its frame index,
later indices overwriting earlier ones, then `.get(signal.date)`. -/
def date_to_index (rows : List Row) (d : ℕ) : Option ℕ :=
  (List.range rows.length).foldl
    (fun acc i => if (rows[i]?).map (·.date) = some d then some i else acc) none

/-- Mutable state of the `_execute_trades` loop. -/
structure ExecState where
  trades : List MATrade := []
  current_position : Option Position := none
  available_capital : ℚ
  reentry_count : ℕ := 0
deriving DecidableEq, Repr

def initExec (cfg : MAConfig) : ExecState := { available_capital := cfg.initial_capital }

/-- One iteration of the `_execute_trades` loop over the signal stream. -/
def execStep (cfg : MAConfig) (rows : List Row) (st : ExecState) (signal : MASignal) :
    ExecState :=
  if signal.signal_type = .BUY ∧ st.current_position = none then
    match date_to_index rows signal.date with
    | none => st
    | some si =>
      match rows[si+1]? with
      | none => st
      | some nextRow =>
        let next_day_open := nextRow.opn
        let next_day_date := nextRow.date
        let is_reentry := containsReentry signal.reasoning
        let rc := if is_reentry then st.reentry_count + 1 else 0
        let position_capital :=
          if is_reentry then
            st.available_capital * (cfg.position_sizing_percentage / 100) * (1/2)
          else
            st.available_capital * (cfg.position_sizing_percentage / 100)
        let shares := pyInt (position_capital / next_day_open)
        if 0 < shares then
          { st with
            current_position := some
              { entry_date := next_day_date, entry_price := next_day_open,
                entry_signal := signal.reasoning, shares := shares,
                is_reentry := is_reentry, reentry_count := rc,
                sig_idx := si, entry_idx := si + 1, alloc := position_capital },
            available_capital := st.available_capital - shares * next_day_open,
            reentry_count := rc }
        else
          { st with reentry_count := rc }
  else if signal.signal_type = .SELL ∧ st.current_position.isSome then
    match st.current_position with
    | none => st
    | some pos =>
      match date_to_index rows signal.date with
      | none => st
      | some si =>
        match rows[si+1]? with
        | none => st
        | some nextRow =>
          let next_day_open := nextRow.opn
          let next_day_date := nextRow.date
          let pnl := (pos.shares : ℚ) * (next_day_open - pos.entry_price)
          let trade : MATrade :=
            { entry_date := pos.entry_date, exit_date := some next_day_date,
              entry_price := pos.entry_price, exit_price := some next_day_open,
              entry_signal := pos.entry_signal, exit_signal := signal.reasoning,
              shares := pos.shares, pnl := some pnl,
              pnl_percent := some ((next_day_open - pos.entry_price) / pos.entry_price * 100),
              duration_days := some ((next_day_date : ℤ) - (pos.entry_date : ℤ)),
              exit_reason := some (classify_exit signal.reasoning),
              is_reentry := pos.is_reentry, reentry_count := pos.reentry_count,
              exit_idx := si + 1, alloc := pos.alloc }
          { st with trades := st.trades ++ [trade],
                    available_capital := st.available_capital + pos.shares * next_day_open,
                    current_position := none }
  else st

/-- The string "Close any remaining position at the end": the trade is built without
`exit_reason`/`is_reentry`/`reentry_count`, so the dataclass defaults
(`None`/`False`/`0`) apply. -/
def forced_close (st : ExecState) (rows : List Row) : List MATrade :=
  match st.current_position, rows.getLast? with
  | some pos, some lastRow =>
    st.trades ++
      [{ entry_date := pos.entry_date, exit_date := some lastRow.date,
         entry_price := pos.entry_price, exit_price := some lastRow.close,
         entry_signal := pos.entry_signal, exit_signal := .endOfPeriod,
         shares := pos.shares,
         pnl := some ((pos.shares : ℚ) * (lastRow.close - pos.entry_price)),
         pnl_percent := some ((lastRow.close - pos.entry_price) / pos.entry_price * 100),
         duration_days := some ((lastRow.date : ℤ) - (pos.entry_date : ℤ)),
         exit_reason := none, is_reentry := false, reentry_count := 0,
         exit_idx := rows.length - 1, alloc := pos.alloc }]
  | _, _ => st.trades

/-- Model of `_execute_trades`: fold the signal stream, then force-close any open position. -/
def execute_trades (cfg : MAConfig) (rows : List Row) (signals : List MASignal) :
    List MATrade :=
  forced_close (signals.foldl (execStep cfg rows) (initExec cfg)) rows

/-- Model of `MeanReversionAlert` dataclass. -/
structure MeanReversionAlert where
  date : ℕ
  price : ℚ
  ma_21 : ℚ
  distance_percent : ℚ
  reasoning : Reasoning := .overboughtAlert
  trailing_stop : Option ℚ := none
deriving DecidableEq, Repr

/-- Membership in the `trade_dates` set: all days from `entry_date` to
`exit_date` inclusive (or to the last frame date when `exit_date` is `None`). -/
def in_trade_dates (rows : List Row) (trades : List MATrade) (d : ℕ) : Bool :=
  trades.any fun t =>
    match t.exit_date with
    | some e => decide (t.entry_date ≤ d) && decide (d ≤ e)
    | none =>
      match rows.getLast? with
      | some lastRow => decide (t.entry_date ≤ d) && decide (d ≤ lastRow.date)
      | none => false

/-- The `_generate_mean_reversion_alerts` scan with its `alert_triggered` /
`peak_distance` hysteresis state. -/
def alertsGo (cfg : MAConfig) (rowsAll : List Row) (trades : List MATrade) :
    List Row → Bool → ℚ → List MeanReversionAlert
  | [], _, _ => []
  | r :: rs, trig, peak =>
    match r.ma_21 with
    | none => alertsGo cfg rowsAll trades rs trig peak
    | some m =>
      if !(in_trade_dates rowsAll trades r.date) then alertsGo cfg rowsAll trades rs false 0
      else
        let p := r.close
        let distance := |p - m| / m * 100
        if decide (m < p) && decide (cfg.mean_reversion_threshold ≤ distance) then
          if !trig then
            { date := r.date, price := p, ma_21 := m, distance_percent := distance } ::
              alertsGo cfg rowsAll trades rs true distance
          else if decide (peak < distance) then alertsGo cfg rowsAll trades rs true distance
          else alertsGo cfg rowsAll trades rs trig peak
        else
          if trig && decide (distance < peak * (1/2)) then
            alertsGo cfg rowsAll trades rs false 0
          else alertsGo cfg rowsAll trades rs trig peak

def generate_mean_reversion_alerts (cfg : MAConfig) (rows : List Row)
    (trades : List MATrade) : List MeanReversionAlert :=
  alertsGo cfg rows trades rows false 0

/-- The performance-metrics dict (`sharpe_ratio` key is the constant `0.0` in
the simulator; field named `sharpe` here). -/
structure PerformanceMetrics where
  total_trades : ℕ
  winning_trades : ℕ
  losing_trades : ℕ
  win_rate : ℚ
  total_pnl : ℚ
  total_return_percent : ℚ
  avg_trade_duration : ℚ
  max_drawdown : ℚ
  sharpe : ℚ
deriving DecidableEq, Repr

/-- Model of `t.pnl > 0` (a `None` pnl never occurs on executor output). -/
def pnlPos (t : MATrade) : Bool :=
  match t.pnl with
  | some v => decide (0 < v)
  | none => false

def pnlNeg (t : MATrade) : Bool :=
  match t.pnl with
  | some v => decide (v < 0)
  | none => false

/-- The max-drawdown loop over cumulative realized PnL. -/
def drawdownGo : List MATrade → ℚ → ℚ → ℚ → ℚ
  | [], _, _, md => md
  | t :: ts, cum, peak, md =>
    match t.pnl with
    | none => drawdownGo ts cum peak md
    | some v =>
      let cum' := cum + v
      let peak' := if peak < cum' then cum' else peak
      let dd := peak' - cum'
      let md' := if md < dd then dd else md
      drawdownGo ts cum' peak' md'

/-- Model of `_calculate_performance_metrics`. -/
def calculate_performance_metrics (cfg : MAConfig) (trades : List MATrade) :
    PerformanceMetrics :=
  if trades.isEmpty then
    { total_trades := 0, winning_trades := 0, losing_trades := 0, win_rate := 0,
      total_pnl := 0, total_return_percent := 0, avg_trade_duration := 0,
      max_drawdown := 0, sharpe := 0 }
  else
    let total := trades.length
    let wins := (trades.filter pnlPos).length
    let losses := (trades.filter pnlNeg).length
    let total_pnl := (trades.filterMap (·.pnl)).sum
    { total_trades := total, winning_trades := wins, losing_trades := losses,
      win_rate := if 0 < total then (wins : ℚ) / (total : ℚ) * 100 else 0,
      total_pnl := total_pnl,
      total_return_percent := total_pnl / cfg.initial_capital * 100,
      avg_trade_duration :=
        (((trades.filterMap (·.duration_days)).map (fun d => (d : ℚ))).sum) / (total : ℚ),
      max_drawdown := drawdownGo trades 0 0 0,
      sharpe := 0 }

/-- The `trade_pnl_by_date` dict lookup: the last trade whose `exit_date` is `d`
and whose `pnl` is not `None` wins (dict-overwrite semantics). -/
def pnl_lookup (trades : List MATrade) (d : ℕ) : Option ℚ :=
  trades.foldl
    (fun acc t => if t.exit_date = some d ∧ t.pnl.isSome then t.pnl else acc) none

/-- The `_generate_equity_curve` loop over frame dates. -/
def equityGo (trades : List MATrade) : List Row → ℚ → List (ℕ × ℚ)
  | [], _ => []
  | r :: rs, eq =>
    let eq' :=
      match pnl_lookup trades r.date with
      | some v => eq + v
      | none => eq
    (r.date, eq') :: equityGo trades rs eq'

def generate_equity_curve (cfg : MAConfig) (rows : List Row) (trades : List MATrade) :
    List (ℕ × ℚ) :=
  equityGo trades rows cfg.initial_capital

/-- Descending order on trades by `entry_date` (`key=lambda x: x.entry_date,
reverse=True`). -/
def tradeDesc (a b : MATrade) : Prop := b.entry_date ≤ a.entry_date

instance : DecidableRel tradeDesc := fun a b => inferInstanceAs (Decidable (b.entry_date ≤ a.entry_date))

instance : IsTotal MATrade tradeDesc := ⟨fun a b => Nat.le_total b.entry_date a.entry_date⟩

instance : IsTrans MATrade tradeDesc := ⟨fun _ _ _ h1 h2 => Nat.le_trans h2 h1⟩

/-- Descending order on signals by `date`. -/
def sigDesc (a b : MASignal) : Prop := b.date ≤ a.date

instance : DecidableRel sigDesc := fun a b => inferInstanceAs (Decidable (b.date ≤ a.date))

instance : IsTotal MASignal sigDesc := ⟨fun a b => Nat.le_total b.date a.date⟩

instance : IsTrans MASignal sigDesc := ⟨fun _ _ _ h1 h2 => Nat.le_trans h2 h1⟩

/-- Descending order on alerts by `date`. -/
def alertDesc (a b : MeanReversionAlert) : Prop := b.date ≤ a.date

instance : DecidableRel alertDesc := fun a b => inferInstanceAs (Decidable (b.date ≤ a.date))

instance : IsTotal MeanReversionAlert alertDesc := ⟨fun a b => Nat.le_total b.date a.date⟩

instance : IsTrans MeanReversionAlert alertDesc := ⟨fun _ _ _ h1 h2 => Nat.le_trans h2 h1⟩

/-- Model of `MAResults` dataclass. -/
structure MAResults where
  symbol : String
  start_date : ℕ
  end_date : ℕ
  total_days : ℕ
  trades : List MATrade
  signals : List MASignal
  mean_reversion_alerts : List MeanReversionAlert
  performance_metrics : PerformanceMetrics
  equity_curve : List (ℕ × ℚ)
deriving DecidableEq, Repr

/-- Model of `run_analysis`.  Returns `none` when the source raises (`ValueError` on a
frame shorter than the slow period; `IndexError` on an empty frame — only
reachable when the slow period is `0`).  The returned frame is the caller's
frame after the in-place indicator-column assignments.  Python's
`list.sort(key=k, reverse=True)` is a stable descending sort, which agrees
extensionally with `List.insertionSort` on the flipped relation. -/
def run_analysis (cfg : MAConfig) (rows : List Row) (symbol : String) :
    Option (List Row × MAResults) :=
  if rows.length < cfg.ma_50_period then none
  else
    let df := setIndicators cfg rows
    match df.head?, df.getLast? with
    | some first, some last =>
      let signals := generate_signals cfg df
      let trades := execute_trades cfg df signals
      let alerts := generate_mean_reversion_alerts cfg df trades
      let metrics := calculate_performance_metrics cfg trades
      let equity := generate_equity_curve cfg df trades
      some (df,
        { symbol := symbol, start_date := first.date, end_date := last.date,
          total_days := df.length,
          trades := List.insertionSort tradeDesc trades,
          signals := List.insertionSort sigDesc signals,
          mean_reversion_alerts := List.insertionSort alertDesc alerts,
          performance_metrics := metrics, equity_curve := equity })
    | _, _ => none

/-- Model of `MAOptimizer` constructor configuration. -/
structure MAOptimizer where
  initial_capital : ℚ := 100000
  atr_period : ℕ := 14
  atr_multiplier : ℚ := 2
  ma_type : MAType := .ema
deriving DecidableEq, Repr

/-- The engine configuration built inside `_test_ma_pair` (all other engine
options are left at their defaults). -/
def engineConfig (opt : MAOptimizer) (fast_ma slow_ma : ℕ) : MAConfig :=
  let periods := resolve_periods (some fast_ma) (some slow_ma)
  { initial_capital := opt.initial_capital, atr_period := opt.atr_period,
    atr_multiplier := opt.atr_multiplier, ma_type := opt.ma_type,
    ma_21_period := periods.1, ma_50_period := periods.2 }

/-- Model of `MAOptimizationResult` dataclass.  `sharpe_ratio` is omitted: it is computed
with `np.std` (a floating-point square root) and no claim refers to it.
`profit_factor = none` encodes the `float('inf')` sentinel;
`avg_trade_duration = none` encodes `NaN` (`np.mean` of an empty selection).
`date_range` keeps the first/last dates (the source formats them as a string). -/
structure MAOptimizationResult where
  fast_ma : ℕ
  slow_ma : ℕ
  ma_distance : ℤ
  total_return_percent : ℚ
  max_drawdown : ℚ
  win_rate : ℚ
  profit_factor : Option ℚ
  total_trades : ℕ
  avg_trade_duration : Option ℚ
  symbol : String
  date_range : ℕ × ℕ
deriving DecidableEq, Repr

/-- Model of `_calculate_max_drawdown` over the equity curve (returns a percentage). -/
def mddGo : List ℚ → ℚ → ℚ → ℚ
  | [], _, md => md
  | v :: vs, peak, md =>
    let peak' := if peak < v then v else peak
    let dd := (peak' - v) / peak'
    let md' := if md < dd then dd else md
    mddGo vs peak' md'

def calculate_max_drawdown (equity_curve : List (ℕ × ℚ)) : ℚ :=
  if equity_curve.length < 2 then 0
  else
    match equity_curve.map Prod.snd with
    | [] => 0
    | v :: vs => mddGo (v :: vs) v 0 * 100

/-- Model of `_calculate_profit_factor`; `none` is the `float('inf')` sentinel for
zero gross loss with positive gross profit. -/
def calculate_profit_factor (trades : List MATrade) : Option ℚ :=
  if trades.isEmpty then some 0
  else
    let gross_profit := ((trades.filterMap (·.pnl)).filter (fun v => decide (0 < v))).sum
    let gross_loss := |((trades.filterMap (·.pnl)).filter (fun v => decide (v < 0))).sum|
    if gross_loss = 0 then
      if 0 < gross_profit then none else some 0
    else some (gross_profit / gross_loss)

/-- Model of `np.mean([t.duration_days for t in results.trades if t.duration_days])`:
Python truthiness drops both `None` and `0` durations; the mean of an empty
selection is `NaN` (`none`). -/
def avg_duration (trades : List MATrade) : Option ℚ :=
  let ds := trades.filterMap fun t =>
    match t.duration_days with
    | some d => if d ≠ 0 then some d else none
    | none => none
  if ds.isEmpty then none
  else some ((ds.map (fun d => (d : ℚ))).sum / (ds.length : ℚ))

/-- Model of `_test_ma_pair`.  The frame is threaded because `run_analysis` mutates it in
place; a raised exception is caught (`none`), as is an empty trade list.
(`results` itself and `results.performance_metrics` are always truthy: the one
is a dataclass instance, the other a non-empty dict.) -/
def test_ma_pair (opt : MAOptimizer) (rows : List Row) (symbol : String)
    (fast_ma slow_ma : ℕ) : List Row × Option MAOptimizationResult :=
  match run_analysis (engineConfig opt fast_ma slow_ma) rows symbol with
  | none => (rows, none)
  | some (rows', results) =>
    if results.trades.isEmpty then (rows', none)
    else
      (rows',
       some { fast_ma := fast_ma, slow_ma := slow_ma,
              ma_distance := (slow_ma : ℤ) - (fast_ma : ℤ),
              total_return_percent := results.performance_metrics.total_return_percent,
              max_drawdown := calculate_max_drawdown results.equity_curve,
              win_rate := results.performance_metrics.win_rate,
              profit_factor := calculate_profit_factor results.trades,
              total_trades := results.performance_metrics.total_trades,
              avg_trade_duration := avg_duration results.trades,
              symbol := symbol, date_range := (results.start_date, results.end_date) })

/-- Model of `_generate_ma_pairs`: nested `range(lo, hi+1)` loops filtered by
`slow_ma - fast_ma >= min_distance`. -/
def generate_ma_pairs (fast_range slow_range : ℕ × ℕ) (min_distance : ℤ) :
    List (ℕ × ℕ) :=
  (List.range' fast_range.1 (fast_range.2 + 1 - fast_range.1)).flatMap fun (fast_ma : ℕ) =>
    (List.range' slow_range.1 (slow_range.2 + 1 - slow_range.1)).filterMap fun (slow_ma : ℕ) =>
      if min_distance ≤ (slow_ma : ℤ) - (fast_ma : ℤ) then some (fast_ma, slow_ma) else none

/-- Descending order on optimizer results by `total_return_percent`. -/
def resDesc (a b : MAOptimizationResult) : Prop :=
  b.total_return_percent ≤ a.total_return_percent

instance : DecidableRel resDesc := fun a b =>
  inferInstanceAs (Decidable (b.total_return_percent ≤ a.total_return_percent))

instance : IsTotal MAOptimizationResult resDesc :=
  ⟨fun a b => le_total b.total_return_percent a.total_return_percent⟩

instance : IsTrans MAOptimizationResult resDesc :=
  ⟨fun _ _ _ h1 h2 => le_trans h2 h1⟩

/-- Model of `parameters_used` dict (`optimization_date`, a wall-clock read, is omitted). -/
structure ParametersUsed where
  fast_ma_range : ℕ × ℕ
  slow_ma_range : ℕ × ℕ
  min_distance : ℤ
  days : ℕ
  atr_period : ℕ
  atr_multiplier : ℚ
  ma_type : MAType
deriving DecidableEq, Repr

/-- Model of `OptimizationSummary` dataclass. -/
structure OptimizationSummary where
  symbol : String
  best_pair : Option MAOptimizationResult
  top_5_pairs : List MAOptimizationResult
  all_results : List MAOptimizationResult
  parameters_used : ParametersUsed
deriving DecidableEq, Repr

/-- The per-pair evaluation loop of `optimize_ma_pairs`, threading the frame
(which each `run_analysis` call mutates in place). -/
def sweepGo (opt : MAOptimizer) (symbol : String) :
    List (ℕ × ℕ) → List Row → List MAOptimizationResult →
      List Row × List MAOptimizationResult
  | [], rows, acc => (rows, acc)
  | p :: ps, rows, acc =>
    match test_ma_pair opt rows symbol p.1 p.2 with
    | (rows', some res) => sweepGo opt symbol ps rows' (acc ++ [res])
    | (rows', none) => sweepGo opt symbol ps rows' acc

/-- Model of `optimize_ma_pairs`.  The data fetch (`get_stock_data`, an external database
read) is replaced by the `rows` argument; `days` is recorded in
`parameters_used` only.  `.error` models the two uncaught exceptions: the
`ValueError` for short data, and the `AttributeError` raised by the final
`summary.best_pair.fast_ma` log line when no pair produced a result. -/
def optimize_ma_pairs (opt : MAOptimizer) (rows : List Row) (symbol : String)
    (days : ℕ) (fast_ma_range slow_ma_range : ℕ × ℕ) (min_distance : ℤ) :
    Except String (List Row × OptimizationSummary) :=
  if rows.length < 100 then .error "ValueError: insufficient data"
  else
    let ma_pairs := generate_ma_pairs fast_ma_range slow_ma_range min_distance
    let swept := sweepGo opt symbol ma_pairs rows []
    let results := List.insertionSort resDesc swept.2
    match results with
    | [] => .error "AttributeError: best_pair is None"
    | best :: _ =>
      .ok (swept.1,
        { symbol := symbol, best_pair := some best, top_5_pairs := results.take 5,
          all_results := results,
          parameters_used :=
            { fast_ma_range := fast_ma_range, slow_ma_range := slow_ma_range,
              min_distance := min_distance, days := days, atr_period := opt.atr_period,
              atr_multiplier := opt.atr_multiplier, ma_type := opt.ma_type } })

/-- Case analysis of one generator step: either no signal is emitted and the
`in_trade` flag is unchanged, or a BUY is emitted on a `false → true` flag
transition, or a SELL on a `true → false` transition. -/
theorem sigStep_spec (cfg : MAConfig) (rows : List Row) (st : SigState) (i : ℕ) :
    ((sigStep cfg rows st i).2 = none ∧ (sigStep cfg rows st i).1.in_trade = st.in_trade) ∨
    (∃ s, (sigStep cfg rows st i).2 = some s ∧
      ((s.signal_type = .BUY ∧ st.in_trade = false ∧ (sigStep cfg rows st i).1.in_trade = true) ∨
       (s.signal_type = .SELL ∧ st.in_trade = true ∧ (sigStep cfg rows st i).1.in_trade = false))) := by
  simp only [sigStep]
  split
  · simp
  · split
    · split
      · rename_i hcond
        simp only [Bool.and_eq_true, Bool.not_eq_true'] at hcond
        simp [hcond.1.1]
      · split
        · rename_i hcond
          simp only [Bool.and_eq_true, Bool.not_eq_true'] at hcond
          simp [hcond.1.1.1.1]
        · split
          · rename_i hin
            split
            · simp [hin]
            · simp [hin]
          · simp
    · simp

/-- Expected alternation of the signal suffix emitted from a state whose
`in_trade` flag is `b`: a SELL comes next if `b`, otherwise a BUY. -/
def altFrom : Bool → List MASignal → Prop
  | _, [] => True
  | b, s :: ss => s.signal_type = (if b then SignalType.SELL else SignalType.BUY) ∧ altFrom (!b) ss

theorem genLoop_altFrom (cfg : MAConfig) (rows : List Row) :
    ∀ (idxs : List ℕ) (st : SigState), altFrom st.in_trade (genLoop cfg rows st idxs) := by
  intro idxs
  induction idxs with
  | nil => intro st; simp [genLoop, altFrom]
  | cons i is ih =>
    intro st
    rcases hs : sigStep cfg rows st i with ⟨st', s?⟩
    have hspec := sigStep_spec cfg rows st i
    rw [hs] at hspec
    cases s? with
    | none =>
      simp only [genLoop, hs]
      rcases hspec with ⟨_, heq⟩ | ⟨s, hss, _⟩
      · have := ih st'
        rwa [heq] at this
      · exact absurd hss (by simp)
    | some s =>
      simp only [genLoop, hs]
      rcases hspec with ⟨hnone, _⟩ | ⟨s', hss, hcases⟩
      · exact absurd hnone (by simp)
      · have hs' : s = s' := by simpa using hss
        subst hs'
        rcases hcases with ⟨hty, hin, hin'⟩ | ⟨hty, hin, hin'⟩
        · rw [hin]
          refine ⟨by simp [hty], ?_⟩
          have := ih st'
          rw [hin'] at this
          simpa using this
        · rw [hin]
          refine ⟨by simp [hty], ?_⟩
          have := ih st'
          rw [hin'] at this
          simpa using this

theorem altFrom_chain' :
    ∀ (l : List MASignal) (b : Bool), altFrom b l →
      l.Chain' (fun a c => a.signal_type ≠ c.signal_type) := by
  intro l
  induction l with
  | nil => intro b _; simp
  | cons s ss ih =>
    intro b h
    rcases h with ⟨hty, htail⟩
    cases ss with
    | nil => simp
    | cons t ts =>
      refine List.chain'_cons.mpr ⟨?_, ih (!b) htail⟩
      rw [hty, htail.1]
      cases b <;> simp

/-- C1: the signal list produced by `_generate_signals` never contains two
consecutive signals of the same type — the `in_trade` (FLAT/IN_POSITION) gate
allows a BUY only from FLAT and a SELL only from IN_POSITION, so the stream
strictly alternates (for every frame, indicator contents and configuration). -/
theorem C1_signals_strictly_alternate (cfg : MAConfig) (rows : List Row) :
    (generate_signals cfg rows).Chain' (fun a b => a.signal_type ≠ b.signal_type) :=
  altFrom_chain' _ false (genLoop_altFrom cfg rows _ {})

/-- Helper for concrete frames: a bar whose open/high/low all equal its close. -/
def mkRow (d : ℕ) (c : ℚ) : Row :=
  { date := d, opn := c, high := c, low := c, close := c, volume := 0 }

/-- Helper for concrete frames: a bar with an explicit high/low range. -/
def mkRowHL (d : ℕ) (c h l : ℚ) : Row :=
  { date := d, opn := c, high := h, low := l, close := c, volume := 0 }

/-- A small SMA configuration (fast 2, slow 3, ATR period 1, multiplier 2)
used by the concrete counterexample frames. -/
def cfgS : MAConfig :=
  { initial_capital := 1000, ma_type := .sma, ma_21_period := 2, ma_50_period := 3,
    atr_period := 1, atr_multiplier := 2 }

/-- Frame for the C2 counterexample: the primary entry at bar 3 happens with the
close already below the fast MA, so bar 4 sits below the fast MA with no
cross-down while also being far below the trailing stop. -/
def rowsC2 : List Row := [mkRow 0 200, mkRow 1 50, mkRow 2 100, mkRow 3 95, mkRow 4 60]

def dfC2 : List Row := setIndicators cfgS rowsC2

/-- Frame for the C3 counterexample: bar 4 makes a new high close while the
true range (hence the ATR) explodes, so the freshly assigned trailing stop
drops far below its previous value. -/
def rowsC3 : List Row := [mkRow 0 10, mkRow 1 10, mkRow 2 10, mkRow 3 12, mkRowHL 4 13 30 5]

def dfC3 : List Row := setIndicators cfgS rowsC3

/-- C2 counterexample: in `dfC2` the generator is in position at bar 4 with
trailing stop 85 and close 60 < 85, the fast-MA cross-down test is false
(previous close 95 was already below the previous fast MA 97.5), and yet no
signal at all is emitted on bar 4 — because the `close < ma_21` branch is
entered first and swallows the bar.  This contradicts the claim that every
in-position bar below the trailing stop without a fast-MA cross-down emits a
SELL. -/
theorem C2_counterexample :
    (sigStateBefore cfgS dfC2 4).in_trade = true ∧
    (sigStateBefore cfgS dfC2 4).current_trailing_stop = some 85 ∧
    (dfC2.map (·.close))[4]? = some 60 ∧ ((60 : ℚ) < 85) ∧
    prevGE dfC2 4 (·.ma_21) = false ∧
    (generate_signals cfgS dfC2).filter (fun s => decide (s.idx = 4)) = [] := by
  with_unfolding_all decide

/-- C2 amended: the exit checks of `_generate_signals` branch on
`close < ma_fast` first.  When the close is below the fast MA, a SELL (reason
'MA Signal') is emitted iff the cross-down test passes, and otherwise the bar
emits nothing at all — the trailing-stop and slow-MA checks are not reached,
even if the close is below the trailing stop.  Only when `close ≥ ma_fast` is
the (freshly updated) trailing stop checked, and then the slow MA. -/
theorem C2_exit_priority (cfg : MAConfig) (rows : List Row) (st : SigState) (i : ℕ)
    (r : Row) (ma21 ma50 atr : ℚ)
    (hr : rows[i]? = some r) (h21 : r.ma_21 = some ma21) (h50 : r.ma_50 = some ma50)
    (hatr : r.atr = some atr) (hin : st.in_trade = true) :
    (r.close < ma21 → prevGE rows i (·.ma_21) = true →
      ∃ s, (sigStep cfg rows st i).2 = some s ∧ s.signal_type = .SELL ∧
        s.reasoning = .sellBelowFastMA) ∧
    (r.close < ma21 → prevGE rows i (·.ma_21) = false →
      (sigStep cfg rows st i).2 = none ∧ (sigStep cfg rows st i).1.in_trade = true) ∧
    (ma21 ≤ r.close → ∀ t, updatedStop cfg st r.close atr = some t → r.close < t →
      ∃ s, (sigStep cfg rows st i).2 = some s ∧ s.signal_type = .SELL ∧
        s.reasoning = .sellTrailingStop) ∧
    (ma21 ≤ r.close → (∀ t, updatedStop cfg st r.close atr = some t → t ≤ r.close) →
      r.close < ma50 →
      ∃ s, (sigStep cfg rows st i).2 = some s ∧ s.signal_type = .SELL ∧
        s.reasoning = .sellTrendBreak) ∧
    (ma21 ≤ r.close → (∀ t, updatedStop cfg st r.close atr = some t → t ≤ r.close) →
      ma50 ≤ r.close →
      (sigStep cfg rows st i).2 = none) := by
  have hmatch : ∀ (o : Option ℚ), (∀ t, o = some t → t ≤ r.close) →
      (match o with | some t => decide (r.close < t) | none => false) = false := by
    intro o ho
    cases o with
    | none => rfl
    | some t => simpa using not_lt.mpr (ho t rfl)
  refine ⟨?_, ?_, ?_, ?_, ?_⟩
  · intro hlt hprev
    simp [sigStep, sellReasonOf, hr, h21, h50, hatr, hin, hlt, hprev]
  · intro hlt hprev
    simp [sigStep, sellReasonOf, hr, h21, h50, hatr, hin, hlt, hprev]
  · intro hge t hts hlt
    have h1 : ¬ (r.close < ma21) := not_lt.mpr hge
    simp [sigStep, sellReasonOf, hr, h21, h50, hatr, hin, h1, hts, hlt]
  · intro hge hts hlt
    have h1 : ¬ (r.close < ma21) := not_lt.mpr hge
    have h2 := hmatch _ hts
    simp [sigStep, sellReasonOf, hr, h21, h50, hatr, hin, h1, h2, hlt]
  · intro hge hts hge50
    have h1 : ¬ (r.close < ma21) := not_lt.mpr hge
    have h2 := hmatch _ hts
    have h3 : ¬ (r.close < ma50) := not_lt.mpr hge50
    simp [sigStep, sellReasonOf, hr, h21, h50, hatr, hin, h1, h2, h3]

/-- The bar-4 row of `dfC2` (with its computed indicator columns). -/
def r4C2 : Row :=
  { date := 4, opn := 60, high := 60, low := 60, close := 60, volume := 0,
    ma_21 := some (155/2), ma_50 := some 85, atr := some 35 }

theorem C2_exit_priority_witness :
    (sigStep cfgS dfC2 (sigStateBefore cfgS dfC2 4) 4).2 = none ∧
    (sigStep cfgS dfC2 (sigStateBefore cfgS dfC2 4) 4).1.in_trade = true :=
  (C2_exit_priority cfgS dfC2 (sigStateBefore cfgS dfC2 4) 4 r4C2 (155/2) 85 35
      (by with_unfolding_all decide) rfl rfl rfl
      (by with_unfolding_all decide)).2.1
    (by with_unfolding_all decide) (by with_unfolding_all decide)

/-- C3 counterexample: in `dfC3` the generator is in position on bars 3 and 4
of the same position (no exit between), with trailing stop 8 after bar 3 and
trailing stop −37 after bar 4: the stop decreased, because on the new high
close 13 it is reassigned `13 − 2·ATR` with ATR = 25, with no max against the
previous value 8.  This contradicts both the claimed non-decrease and the
claimed `max(previous, highest − ATR·multiplier)` update rule (which would give
`max(8, −37) = 8`). -/
theorem C3_counterexample :
    (sigStateBefore cfgS dfC3 4).in_trade = true ∧
    (sigStateBefore cfgS dfC3 4).current_trailing_stop = some 8 ∧
    (sigStateBefore cfgS dfC3 5).in_trade = true ∧
    (sigStateBefore cfgS dfC3 5).current_trailing_stop = some (-37) ∧
    ((-37 : ℚ) < 8) := by
  with_unfolding_all decide

/-- C3 amended: on an in-position bar that does not exit, the trailing stop is
reassigned to `close − ATR·multiplier` exactly when the bar's close exceeds the
previous high-water mark (the new high becoming the mark), and is left
unchanged otherwise.  No `max` with the previous stop is taken, so the stop can
decrease when the ATR grows on a new-high bar. -/
theorem C3_stop_update_rule (cfg : MAConfig) (rows : List Row) (st : SigState) (i : ℕ)
    (r : Row) (ma21 ma50 atr hmax : ℚ)
    (hr : rows[i]? = some r) (h21 : r.ma_21 = some ma21) (h50 : r.ma_50 = some ma50)
    (hatr : r.atr = some atr) (hin : st.in_trade = true)
    (hmaxeq : st.highest_price_since_entry = some hmax)
    (hstay : (sigStep cfg rows st i).1.in_trade = true) :
    (sigStep cfg rows st i).1.current_trailing_stop =
      (if hmax < r.close then some (r.close - atr * cfg.atr_multiplier)
       else st.current_trailing_stop) ∧
    (sigStep cfg rows st i).1.highest_price_since_entry =
      (if hmax < r.close then some r.close else some hmax) := by
  cases hsell : sellReasonOf cfg rows i st r.close ma21 ma50 atr with
  | some rsn =>
    exfalso
    simp [sigStep, hr, h21, h50, hatr, hin, hsell] at hstay
  | none =>
    simp [sigStep, hr, h21, h50, hatr, hin, hsell, updatedHigh, updatedStop, newHighB,
      hmaxeq]

theorem C3_stop_update_rule_witness :
    (sigStep cfgS dfC3 (sigStateBefore cfgS dfC3 4) 4).1.current_trailing_stop =
      some (-37) ∧
    (sigStep cfgS dfC3 (sigStateBefore cfgS dfC3 4) 4).1.highest_price_since_entry =
      some 13 := by
  have h := C3_stop_update_rule cfgS dfC3 (sigStateBefore cfgS dfC3 4) 4
    { date := 4, opn := 13, high := 30, low := 5, close := 13, volume := 0,
      ma_21 := some (25/2), ma_50 := some (35/3), atr := some 25 }
    (25/2) (35/3) 25 12
    (by with_unfolding_all decide) rfl rfl rfl
    (by with_unfolding_all decide) (by with_unfolding_all decide)
    (by with_unfolding_all decide)
  rcases h with ⟨h1, h2⟩
  constructor
  · rw [h1]; with_unfolding_all decide
  · rw [h2]; with_unfolding_all decide

/-- Frame for the C4 counterexample: one primary entry, prices keep rising, so
the position is still open at the last bar and is force-closed. -/
def rowsC4 : List Row :=
  [mkRow 0 10, mkRow 1 10, mkRow 2 10, mkRow 3 12, mkRow 4 13, mkRow 5 14]

def dfC4 : List Row := setIndicators cfgS rowsC4

/-- C4 counterexample: running the executor on `dfC4` yields exactly one trade,
the forced end-of-period closure.  Its `exit_price` is the last bar's close 14
and its `exit_date` the last bar's date 5 as claimed, but its `exit_reason` is
`None` — the source builds the final trade without passing `exit_reason`, so
the claimed "END_OF_PERIOD" label is never assigned. -/
theorem C4_counterexample :
    (execute_trades cfgS dfC4 (generate_signals cfgS dfC4)).map
        (fun t => (t.exit_signal, t.exit_reason, t.exit_price, t.exit_date)) =
      [(Reasoning.endOfPeriod, (none : Option ExitReason), some (14 : ℚ), some 5)] ∧
    (none : Option ExitReason) ≠ some ExitReason.endOfPeriod := by
  with_unfolding_all decide

/-- C4 amended: when a position is still open after the signal loop, the
executor appends exactly one closing trade whose `exit_price` is the last bar's
close and whose `exit_date` is the last bar's date, with the end-of-period exit
text in `exit_signal` — but with `exit_reason` left `None` (the dataclass
default), not "END_OF_PERIOD". -/
theorem C4_forced_closure (cfg : MAConfig) (rows : List Row) (sigs : List MASignal)
    (pos : Position) (lastRow : Row)
    (hpos : (sigs.foldl (execStep cfg rows) (initExec cfg)).current_position = some pos)
    (hlast : rows.getLast? = some lastRow) :
    execute_trades cfg rows sigs =
      (sigs.foldl (execStep cfg rows) (initExec cfg)).trades ++
        [{ entry_date := pos.entry_date, exit_date := some lastRow.date,
           entry_price := pos.entry_price, exit_price := some lastRow.close,
           entry_signal := pos.entry_signal, exit_signal := .endOfPeriod,
           shares := pos.shares,
           pnl := some ((pos.shares : ℚ) * (lastRow.close - pos.entry_price)),
           pnl_percent := some ((lastRow.close - pos.entry_price) / pos.entry_price * 100),
           duration_days := some ((lastRow.date : ℤ) - (pos.entry_date : ℤ)),
           exit_reason := none, is_reentry := false, reentry_count := 0,
           exit_idx := rows.length - 1, alloc := pos.alloc }] := by
  unfold execute_trades forced_close
  rw [hpos, hlast]

theorem C4_forced_closure_witness :
    (execute_trades cfgS dfC4 (generate_signals cfgS dfC4)).map
        (fun t => (t.entry_date, t.pnl, t.exit_reason)) =
      [(4, some (3 : ℚ), (none : Option ExitReason))] := by
  rw [C4_forced_closure cfgS dfC4 (generate_signals cfgS dfC4)
    { entry_date := 4, entry_price := 13, entry_signal := .primaryEntry, shares := 3,
      is_reentry := false, reentry_count := 0, sig_idx := 3, entry_idx := 4, alloc := 50 }
    { date := 5, opn := 14, high := 14, low := 14, close := 14, volume := 0,
      ma_21 := some (27/2), ma_50 := some 13, atr := some 1 }
    (by with_unfolding_all decide) (by with_unfolding_all decide)]
  with_unfolding_all decide

theorem pyInt_of_nonneg {q : ℚ} (h : 0 ≤ q) : pyInt q = Rat.floor q := if_pos h

/-- C5: on a BUY processed while flat with a fillable next bar, the allocated
capital is `available_capital * pct/100` for a primary entry and exactly half
that for a re-entry; the share count is the integer floor of the allocation
divided by the next bar's open; and a zero floor opens no position and leaves
the trade list untouched.  (Standing input assumptions: a positive fill price
and non-negative capital/percentage, under which Python's truncating `int()`
coincides with the floor.) -/
theorem C5_buy_position_sizing (cfg : MAConfig) (rows : List Row) (st : ExecState)
    (sig : MASignal) (si : ℕ) (nextRow : Row)
    (hflat : st.current_position = none) (hbuy : sig.signal_type = .BUY)
    (hidx : date_to_index rows sig.date = some si) (hnext : rows[si+1]? = some nextRow)
    (hopen : 0 < nextRow.opn) (hac : 0 ≤ st.available_capital)
    (hpct : 0 ≤ cfg.position_sizing_percentage) :
    (containsReentry sig.reasoning = false →
      0 < Rat.floor (st.available_capital * (cfg.position_sizing_percentage / 100)
          / nextRow.opn) →
      (execStep cfg rows st sig).current_position = some
        { entry_date := nextRow.date, entry_price := nextRow.opn,
          entry_signal := sig.reasoning,
          shares := Rat.floor (st.available_capital
            * (cfg.position_sizing_percentage / 100) / nextRow.opn),
          is_reentry := false, reentry_count := 0, sig_idx := si, entry_idx := si + 1,
          alloc := st.available_capital * (cfg.position_sizing_percentage / 100) } ∧
      (execStep cfg rows st sig).trades = st.trades) ∧
    (containsReentry sig.reasoning = true →
      0 < Rat.floor (st.available_capital * (cfg.position_sizing_percentage / 100) * (1/2)
          / nextRow.opn) →
      (execStep cfg rows st sig).current_position = some
        { entry_date := nextRow.date, entry_price := nextRow.opn,
          entry_signal := sig.reasoning,
          shares := Rat.floor (st.available_capital
            * (cfg.position_sizing_percentage / 100) * (1/2) / nextRow.opn),
          is_reentry := true, reentry_count := st.reentry_count + 1, sig_idx := si,
          entry_idx := si + 1,
          alloc := st.available_capital * (cfg.position_sizing_percentage / 100) * (1/2) } ∧
      (execStep cfg rows st sig).trades = st.trades) ∧
    (containsReentry sig.reasoning = false →
      Rat.floor (st.available_capital * (cfg.position_sizing_percentage / 100)
          / nextRow.opn) = 0 →
      (execStep cfg rows st sig).current_position = none ∧
      (execStep cfg rows st sig).trades = st.trades) ∧
    (containsReentry sig.reasoning = true →
      Rat.floor (st.available_capital * (cfg.position_sizing_percentage / 100) * (1/2)
          / nextRow.opn) = 0 →
      (execStep cfg rows st sig).current_position = none ∧
      (execStep cfg rows st sig).trades = st.trades) := by
  have hpc : 0 ≤ st.available_capital * (cfg.position_sizing_percentage / 100) :=
    mul_nonneg hac (div_nonneg hpct (by norm_num))
  have hpc2 : 0 ≤ st.available_capital * (cfg.position_sizing_percentage / 100) * 2⁻¹ :=
    mul_nonneg hpc (by norm_num)
  have hdiv := pyInt_of_nonneg (div_nonneg hpc (le_of_lt hopen))
  have hdiv2 := pyInt_of_nonneg (div_nonneg hpc2 (le_of_lt hopen))
  refine ⟨?_, ?_, ?_, ?_⟩
  · intro hre hpos
    simp [execStep, hbuy, hflat, hidx, hnext, hre, hdiv, hpos]
  · intro hre hpos
    rw [one_div] at hpos
    simp [execStep, hbuy, hflat, hidx, hnext, hre, hdiv2, hpos]
  · intro hre hzero
    simp [execStep, hbuy, hflat, hidx, hnext, hre, hdiv, hzero]
  · intro hre hzero
    rw [one_div] at hzero
    simp [execStep, hbuy, hflat, hidx, hnext, hre, hdiv2, hzero]

/-- The primary BUY signal of `dfC4` (bar 3), used as a concrete input. -/
def sigC5 : MASignal :=
  { idx := 3, date := 3, signal_type := .BUY, price := 12, ma_21 := 11, ma_50 := 32/3,
    reasoning := .primaryEntry, confidence := 9/10, atr := some 2, trailing_stop := some 8 }

theorem C5_buy_position_sizing_witness :
    (execStep cfgS dfC4 (initExec cfgS) sigC5).current_position = some
      { entry_date := 4, entry_price := 13, entry_signal := Reasoning.primaryEntry,
        shares := Rat.floor ((initExec cfgS).available_capital
          * (cfgS.position_sizing_percentage / 100) / 13),
        is_reentry := false, reentry_count := 0, sig_idx := 3, entry_idx := 4,
        alloc := (initExec cfgS).available_capital
          * (cfgS.position_sizing_percentage / 100) } ∧
    (execStep cfgS dfC4 (initExec cfgS) sigC5).trades = (initExec cfgS).trades :=
  (C5_buy_position_sizing cfgS dfC4 (initExec cfgS) sigC5 3
      { date := 4, opn := 13, high := 13, low := 13, close := 13, volume := 0,
        ma_21 := some (25/2), ma_50 := some (35/3), atr := some 1 }
      rfl rfl (by with_unfolding_all decide) (by with_unfolding_all decide)
      (by with_unfolding_all decide) (by with_unfolding_all decide)
      (by with_unfolding_all decide)).1
    rfl (by with_unfolding_all decide)

theorem mem_of_getElemOpt {α : Type} {l : List α} {i : ℕ} {a : α}
    (h : l[i]? = some a) : a ∈ l := by
  have hi : i < l.length := by
    by_contra hc
    simp [List.getElem?_eq_none (Nat.le_of_not_lt hc)] at h
  rw [List.getElem?_eq_getElem hi] at h
  cases h
  exact List.getElem_mem hi

/-- The executor's capital invariant: non-negative available capital, every
open position has positive shares costing no more than its allocated capital,
and every recorded trade cost no more than its allocated capital. -/
def ExecInv (st : ExecState) : Prop :=
  0 ≤ st.available_capital ∧
  (∀ p, st.current_position = some p →
    0 < p.shares ∧ (p.shares : ℚ) * p.entry_price ≤ p.alloc) ∧
  (∀ t ∈ st.trades, (t.shares : ℚ) * t.entry_price ≤ t.alloc)

theorem execStep_preserves_inv (cfg : MAConfig) (rows : List Row) (st : ExecState)
    (sig : MASignal)
    (hpct0 : 0 < cfg.position_sizing_percentage)
    (hpct1 : cfg.position_sizing_percentage ≤ 100)
    (hopen : ∀ r ∈ rows, 0 < r.opn)
    (hinv : ExecInv st) : ExecInv (execStep cfg rows st sig) := by
  obtain ⟨hac, hposInv, htr⟩ := hinv
  unfold execStep
  split
  · rename_i hcond
    cases hdx : date_to_index rows sig.date with
    | none => exact ⟨hac, hposInv, htr⟩
    | some si =>
      dsimp only
      cases hnx : rows[si+1]? with
      | none => exact ⟨hac, hposInv, htr⟩
      | some nextRow =>
        dsimp only
        have hopn : 0 < nextRow.opn := hopen nextRow (mem_of_getElemOpt hnx)
        have hfrac : 0 ≤ cfg.position_sizing_percentage / 100 :=
          div_nonneg (le_of_lt hpct0) (by norm_num)
        have hfrac1 : cfg.position_sizing_percentage / 100 ≤ 1 :=
          (div_le_one (by norm_num)).mpr hpct1
        have hbase : 0 ≤ st.available_capital * (cfg.position_sizing_percentage / 100) :=
          mul_nonneg hac hfrac
        have hbasele : st.available_capital * (cfg.position_sizing_percentage / 100) ≤
            st.available_capital := mul_le_of_le_one_right hac hfrac1
        set pc := if containsReentry sig.reasoning then
            st.available_capital * (cfg.position_sizing_percentage / 100) * (1/2)
          else st.available_capital * (cfg.position_sizing_percentage / 100) with hpcdef
        have hpc0 : 0 ≤ pc := by
          rw [hpcdef]; split
          · exact mul_nonneg hbase (by norm_num)
          · exact hbase
        have hpcle : pc ≤ st.available_capital := by
          rw [hpcdef]; split
          · calc st.available_capital * (cfg.position_sizing_percentage / 100) * (1/2)
                ≤ st.available_capital * (cfg.position_sizing_percentage / 100) * 1 :=
                  mul_le_mul_of_nonneg_left (by norm_num) hbase
              _ = st.available_capital * (cfg.position_sizing_percentage / 100) := mul_one _
              _ ≤ st.available_capital := hbasele
          · exact hbasele
        have hq : 0 ≤ pc / nextRow.opn := div_nonneg hpc0 (le_of_lt hopn)
        have hkey : (pyInt (pc / nextRow.opn) : ℚ) * nextRow.opn ≤ pc := by
          rw [pyInt_of_nonneg hq]
          calc ((Rat.floor (pc / nextRow.opn) : ℤ) : ℚ) * nextRow.opn
              ≤ pc / nextRow.opn * nextRow.opn :=
                mul_le_mul_of_nonneg_right (Rat.le_floor.mp le_rfl) (le_of_lt hopn)
            _ = pc := div_mul_cancel₀ pc (ne_of_gt hopn)
        split
        · rename_i hshares
          refine ⟨?_, ?_, ?_⟩
          · have hle : (pyInt (pc / nextRow.opn) : ℚ) * nextRow.opn ≤ st.available_capital :=
              le_trans hkey hpcle
            simpa using sub_nonneg.mpr hle
          · intro p hp
            simp only [Option.some.injEq] at hp
            subst hp
            exact ⟨hshares, hkey⟩
          · exact htr
        · exact ⟨hac, fun p hp => hposInv p hp, htr⟩
  · split
    · rename_i hcond
      cases hcp : st.current_position with
      | none => exact ⟨hac, hposInv, htr⟩
      | some pos =>
        dsimp only
        cases hdx : date_to_index rows sig.date with
        | none => exact ⟨hac, hposInv, htr⟩
        | some si =>
          dsimp only
          cases hnx : rows[si+1]? with
          | none => exact ⟨hac, hposInv, htr⟩
          | some nextRow =>
            dsimp only
            have hopn : 0 < nextRow.opn := hopen nextRow (mem_of_getElemOpt hnx)
            obtain ⟨hpsh, hple⟩ := hposInv pos hcp
            refine ⟨?_, ?_, ?_⟩
            · have hnn : (0 : ℚ) ≤ (pos.shares : ℚ) * nextRow.opn :=
                mul_nonneg (by exact_mod_cast le_of_lt hpsh) (le_of_lt hopn)
              simpa using add_nonneg hac hnn
            · intro p hp
              simp at hp
            · intro t ht
              rcases List.mem_append.mp ht with hmem | hmem
              · exact htr t hmem
              · rcases List.mem_singleton.mp hmem with rfl
                exact hple
    · exact ⟨hac, hposInv, htr⟩

theorem foldl_preserves_inv (cfg : MAConfig) (rows : List Row)
    (hpct0 : 0 < cfg.position_sizing_percentage)
    (hpct1 : cfg.position_sizing_percentage ≤ 100)
    (hopen : ∀ r ∈ rows, 0 < r.opn) :
    ∀ (sigs : List MASignal) (st : ExecState), ExecInv st →
      ExecInv (sigs.foldl (execStep cfg rows) st) := by
  intro sigs
  induction sigs with
  | nil => intro st h; exact h
  | cons s ss ih =>
    intro st h
    exact ih _ (execStep_preserves_inv cfg rows st s hpct0 hpct1 hopen h)

/-- C6: with a position-sizing percentage in (0, 100], every trade the executor
produces (including the forced closure) has `shares * entry_price` at most the
capital allocated at its entry (the ghost `alloc` field, recording the source's
`position_capital` local), and the available capital is non-negative after
every prefix of processed signals, i.e. after every buy and sell step.
(Standing input assumptions: non-negative initial capital and positive open
prices, per the spec's input contract.) -/
theorem C6_capital_invariants (cfg : MAConfig) (rows : List Row) (sigs : List MASignal)
    (hpct0 : 0 < cfg.position_sizing_percentage)
    (hpct1 : cfg.position_sizing_percentage ≤ 100)
    (hopen : ∀ r ∈ rows, 0 < r.opn)
    (hcap : 0 ≤ cfg.initial_capital) :
    (∀ t ∈ execute_trades cfg rows sigs, (t.shares : ℚ) * t.entry_price ≤ t.alloc) ∧
    (∀ pre, pre <+: sigs →
      0 ≤ (pre.foldl (execStep cfg rows) (initExec cfg)).available_capital) := by
  have hinit : ExecInv (initExec cfg) := by
    refine ⟨hcap, ?_, ?_⟩
    · intro p hp
      simp [initExec] at hp
    · intro t ht
      simp [initExec] at ht
  constructor
  · have hfin := foldl_preserves_inv cfg rows hpct0 hpct1 hopen sigs (initExec cfg) hinit
    intro t ht
    unfold execute_trades forced_close at ht
    cases hcp : (sigs.foldl (execStep cfg rows) (initExec cfg)).current_position with
    | none =>
      rw [hcp] at ht
      cases hlast : rows.getLast? with
      | none => rw [hlast] at ht; exact hfin.2.2 t ht
      | some lastRow => rw [hlast] at ht; exact hfin.2.2 t ht
    | some pos =>
      rw [hcp] at ht
      cases hlast : rows.getLast? with
      | none => rw [hlast] at ht; exact hfin.2.2 t ht
      | some lastRow =>
        rw [hlast] at ht
        rcases List.mem_append.mp ht with hmem | hmem
        · exact hfin.2.2 t hmem
        · rcases List.mem_singleton.mp hmem with rfl
          exact (hfin.2.1 pos hcp).2
  · intro pre _
    exact (foldl_preserves_inv cfg rows hpct0 hpct1 hopen pre (initExec cfg) hinit).1

theorem C6_capital_invariants_witness :
    ((0 : ℚ) < cfgS.position_sizing_percentage ∧ cfgS.position_sizing_percentage ≤ 100 ∧
      (∀ r ∈ dfC4, 0 < r.opn) ∧ (0 : ℚ) ≤ cfgS.initial_capital) ∧
    ((∀ t ∈ execute_trades cfgS dfC4 (generate_signals cfgS dfC4),
        (t.shares : ℚ) * t.entry_price ≤ t.alloc) ∧
      (∀ pre, pre <+: generate_signals cfgS dfC4 →
        0 ≤ (pre.foldl (execStep cfgS dfC4) (initExec cfgS)).available_capital)) :=
  ⟨⟨by with_unfolding_all decide, by with_unfolding_all decide,
    by with_unfolding_all decide, by with_unfolding_all decide⟩,
   C6_capital_invariants cfgS dfC4 (generate_signals cfgS dfC4)
     (by with_unfolding_all decide) (by with_unfolding_all decide)
     (by with_unfolding_all decide) (by with_unfolding_all decide)⟩

/-- Setting indicator columns leaves any indicator-independent projection of
the rows unchanged. -/
theorem setCols_map {α : Type} (f : Row → α)
    (hf : ∀ (r : Row) (x y z : Option ℚ),
      f { r with ma_21 := x, ma_50 := y, atr := z } = f r) :
    ∀ (rs : List Row) (xs ys zs : List (Option ℚ)),
      (setCols rs xs ys zs).map f = rs.map f := by
  intro rs
  induction rs with
  | nil => intro xs ys zs; cases xs <;> cases ys <;> cases zs <;> rfl
  | cons r rs ih =>
    intro xs ys zs
    cases xs with
    | nil => rfl
    | cons x xs =>
      cases ys with
      | nil => rfl
      | cons y ys =>
        cases zs with
        | nil => rfl
        | cons z zs => simp [setCols, ih, hf]

theorem setIndicators_map_date (cfg : MAConfig) (rows : List Row) :
    (setIndicators cfg rows).map (·.date) = rows.map (·.date) :=
  setCols_map (·.date) (fun _ _ _ _ => rfl) rows _ _ _

/-- The OHLCV part of a row (all columns the engine never writes). -/
def rawOf (r : Row) : ℕ × ℚ × ℚ × ℚ × ℚ × ℚ :=
  (r.date, r.opn, r.high, r.low, r.close, r.volume)

theorem setIndicators_map_raw (cfg : MAConfig) (rows : List Row) :
    (setIndicators cfg rows).map rawOf = rows.map rawOf :=
  setCols_map rawOf (fun _ _ _ _ => rfl) rows _ _ _

theorem equityGo_map_fst (trades : List MATrade) :
    ∀ (rows : List Row) (e : ℚ),
      (equityGo trades rows e).map Prod.fst = rows.map (·.date) := by
  intro rows
  induction rows with
  | nil => intro e; rfl
  | cons r rs ih => intro e; simp [equityGo, ih]

/-- Inversion of a successful `run_analysis` call into its components. -/
theorem run_analysis_inv (cfg : MAConfig) (rows : List Row) (symbol : String)
    (df : List Row) (res : MAResults)
    (h : run_analysis cfg rows symbol = some (df, res)) :
    df = setIndicators cfg rows ∧
    res.signals = List.insertionSort sigDesc (generate_signals cfg df) ∧
    res.trades = List.insertionSort tradeDesc
      (execute_trades cfg df (generate_signals cfg df)) ∧
    res.mean_reversion_alerts = List.insertionSort alertDesc
      (generate_mean_reversion_alerts cfg df
        (execute_trades cfg df (generate_signals cfg df))) ∧
    res.performance_metrics = calculate_performance_metrics cfg
      (execute_trades cfg df (generate_signals cfg df)) ∧
    res.equity_curve = generate_equity_curve cfg df
      (execute_trades cfg df (generate_signals cfg df)) := by
  unfold run_analysis at h
  by_cases hlen : rows.length < cfg.ma_50_period
  · rw [if_pos hlen] at h
    exact absurd h (by simp)
  · rw [if_neg hlen] at h
    dsimp only at h
    cases hh : (setIndicators cfg rows).head? with
    | none => rw [hh] at h; exact absurd h (by simp)
    | some first =>
      rw [hh] at h
      cases hl : (setIndicators cfg rows).getLast? with
      | none => rw [hl] at h; exact absurd h (by simp)
      | some last =>
        rw [hl] at h
        simp only [Option.some.injEq, Prod.mk.injEq] at h
        obtain ⟨hdf, hres⟩ := h
        subst hdf
        subst hres
        exact ⟨rfl, rfl, rfl, rfl, rfl, rfl⟩

/-- C10: in every successful `run_analysis` result the trades, signals and
mean-reversion alerts are each sorted newest-first (trades by entry date), and
the equity curve carries exactly the price series' dates in their original
(ascending, when the input is ascending) order. -/
theorem C10_result_ordering (cfg : MAConfig) (rows : List Row) (symbol : String)
    (df : List Row) (res : MAResults)
    (h : run_analysis cfg rows symbol = some (df, res)) :
    res.trades.Sorted tradeDesc ∧
    res.signals.Sorted sigDesc ∧
    res.mean_reversion_alerts.Sorted alertDesc ∧
    res.equity_curve.map Prod.fst = rows.map (·.date) ∧
    ((rows.map (·.date)).Chain' (· < ·) →
      (res.equity_curve.map Prod.fst).Chain' (· < ·)) := by
  obtain ⟨hdf, hsig, htr, hal, _, heq⟩ := run_analysis_inv cfg rows symbol df res h
  have hdates : res.equity_curve.map Prod.fst = rows.map (·.date) := by
    rw [heq]
    unfold generate_equity_curve
    rw [equityGo_map_fst, hdf, setIndicators_map_date]
  refine ⟨?_, ?_, ?_, hdates, ?_⟩
  · rw [htr]; exact List.sorted_insertionSort tradeDesc _
  · rw [hsig]; exact List.sorted_insertionSort sigDesc _
  · rw [hal]; exact List.sorted_insertionSort alertDesc _
  · intro hmono
    rwa [hdates]

theorem lt_length_of_getElemOpt {α : Type} {l : List α} {i : ℕ} {a : α}
    (h : l[i]? = some a) : i < l.length := by
  by_contra hc
  simp [List.getElem?_eq_none (Nat.le_of_not_lt hc)] at h

/-- A signal's ghost index points at the bar it was generated on. -/
def SigConsistent (rows : List Row) (s : MASignal) : Prop :=
  (rows[s.idx]?).map (·.date) = some s.date

theorem sigStep_emit_facts (cfg : MAConfig) (rows : List Row) (st : SigState) (i : ℕ)
    (st' : SigState) (s : MASignal) (h : sigStep cfg rows st i = (st', some s)) :
    s.idx = i ∧ SigConsistent rows s := by
  unfold sigStep at h
  cases hr : rows[i]? with
  | none => rw [hr] at h; exact absurd h (by simp)
  | some r =>
    rw [hr] at h
    cases h21 : r.ma_21 with
    | none => simp [h21] at h
    | some ma21 =>
      cases h50 : r.ma_50 with
      | none => simp [h21, h50] at h
      | some ma50 =>
        cases hatr : r.atr with
        | none => simp [h21, h50, hatr] at h
        | some atr =>
          simp only [h21, h50, hatr] at h
          split at h
          · simp only [Prod.mk.injEq, Option.some.injEq] at h
            obtain ⟨_, hs⟩ := h
            subst hs
            exact ⟨rfl, by simp [SigConsistent, hr]⟩
          · split at h
            · simp only [Prod.mk.injEq, Option.some.injEq] at h
              obtain ⟨_, hs⟩ := h
              subst hs
              exact ⟨rfl, by simp [SigConsistent, hr]⟩
            · split at h
              · split at h
                · simp only [Prod.mk.injEq, Option.some.injEq] at h
                  obtain ⟨_, hs⟩ := h
                  subst hs
                  exact ⟨rfl, by simp [SigConsistent, hr]⟩
                · exact absurd h (by simp)
              · exact absurd h (by simp)

theorem genLoop_idx_sublist (cfg : MAConfig) (rows : List Row) :
    ∀ (idxs : List ℕ) (st : SigState),
      ((genLoop cfg rows st idxs).map (·.idx)).Sublist idxs := by
  intro idxs
  induction idxs with
  | nil => intro st; simp [genLoop]
  | cons i is ih =>
    intro st
    rcases hs : sigStep cfg rows st i with ⟨st', s?⟩
    cases s? with
    | none =>
      simp only [genLoop, hs]
      exact (ih st').cons i
    | some s =>
      have hfacts := sigStep_emit_facts cfg rows st i st' s hs
      simp only [genLoop, hs, List.map_cons, hfacts.1]
      exact (ih st').cons₂ i

theorem genLoop_mem_consistent (cfg : MAConfig) (rows : List Row) :
    ∀ (idxs : List ℕ) (st : SigState) (s : MASignal),
      s ∈ genLoop cfg rows st idxs → SigConsistent rows s := by
  intro idxs
  induction idxs with
  | nil => intro st s hmem; simp [genLoop] at hmem
  | cons i is ih =>
    intro st s hmem
    rcases hs : sigStep cfg rows st i with ⟨st', s?⟩
    cases s? with
    | none =>
      rw [genLoop, hs] at hmem
      exact ih st' s hmem
    | some t =>
      rw [genLoop, hs] at hmem
      rcases List.mem_cons.mp hmem with rfl | hmem'
      · exact (sigStep_emit_facts cfg rows st i st' s hs).2
      · exact ih st' s hmem'

/-- The signals of one run carry strictly increasing in-range bar indices, each
dated by its bar. -/
theorem pairwise_lt_rangeAux : ∀ (n s : ℕ), (List.range' s n).Pairwise (· < ·) := by
  intro n
  induction n with
  | zero => intro s; simp
  | succ m ih =>
    intro s
    rw [List.range'_succ]
    refine List.pairwise_cons.mpr ⟨?_, ih (s+1)⟩
    intro b hb
    have := List.mem_range'_1.mp hb
    omega

theorem generate_signals_facts (cfg : MAConfig) (rows : List Row) :
    ((generate_signals cfg rows).map (·.idx)).Pairwise (· < ·) ∧
    (∀ s ∈ generate_signals cfg rows,
      s.idx < rows.length ∧ SigConsistent rows s) := by
  constructor
  · have hsub := genLoop_idx_sublist cfg rows
      (List.range' (start_index cfg) (rows.length - start_index cfg)) {}
    exact (pairwise_lt_rangeAux _ _).sublist hsub
  · intro s hmem
    refine ⟨?_, genLoop_mem_consistent cfg rows _ _ s hmem⟩
    have hsub := genLoop_idx_sublist cfg rows
      (List.range' (start_index cfg) (rows.length - start_index cfg)) {}
    have hidx : s.idx ∈ List.range' (start_index cfg) (rows.length - start_index cfg) :=
      hsub.subset (List.mem_map_of_mem (·.idx) hmem)
    have := List.mem_range'_1.mp hidx
    omega

theorem pairwise_ne_getElemOpt {l : List ℕ} (hp : l.Pairwise (· ≠ ·)) {i j a : ℕ}
    (hi : l[i]? = some a) (hj : l[j]? = some a) : i = j := by
  have hi' : i < l.length := lt_length_of_getElemOpt hi
  have hj' : j < l.length := lt_length_of_getElemOpt hj
  rw [List.getElem?_eq_getElem hi'] at hi
  rw [List.getElem?_eq_getElem hj'] at hj
  simp only [Option.some.injEq] at hi hj
  rcases Nat.lt_trichotomy i j with hlt | heq | hgt
  · exact absurd (hi.trans hj.symm) ((List.pairwise_iff_getElem.mp hp) i j hi' hj' hlt)
  · exact heq
  · exact absurd (hj.trans hi.symm) ((List.pairwise_iff_getElem.mp hp) j i hj' hi' hgt)

theorem dtoi_foldl_stay (rows : List Row) (d : ℕ) (i : ℕ) :
    ∀ (l : List ℕ), (∀ j ∈ l, (rows[j]?).map (·.date) = some d → j = i) →
      l.foldl (fun acc k => if (rows[k]?).map (·.date) = some d then some k else acc)
        (some i) = some i := by
  intro l
  induction l with
  | nil => intro _; rfl
  | cons j l ih =>
    intro huniq
    simp only [List.foldl_cons]
    by_cases hj : (rows[j]?).map (·.date) = some d
    · rw [if_pos hj, huniq j (List.mem_cons_self j l) hj]
      exact ih fun k hk => huniq k (List.mem_cons_of_mem j hk)
    · rw [if_neg hj]
      exact ih fun k hk => huniq k (List.mem_cons_of_mem j hk)

theorem dtoi_foldl_found (rows : List Row) (d : ℕ) (i : ℕ)
    (hi : (rows[i]?).map (·.date) = some d) :
    ∀ (l : List ℕ) (acc : Option ℕ), i ∈ l →
      (∀ j ∈ l, (rows[j]?).map (·.date) = some d → j = i) →
      l.foldl (fun acc k => if (rows[k]?).map (·.date) = some d then some k else acc)
        acc = some i := by
  intro l
  induction l with
  | nil => intro acc hmem; exact absurd hmem (List.not_mem_nil i)
  | cons j l ih =>
    intro acc hmem huniq
    simp only [List.foldl_cons]
    by_cases hj : (rows[j]?).map (·.date) = some d
    · rw [if_pos hj, huniq j (List.mem_cons_self j l) hj]
      exact dtoi_foldl_stay rows d i l fun k hk => huniq k (List.mem_cons_of_mem j hk)
    · rw [if_neg hj]
      rcases List.mem_cons.mp hmem with rfl | hmem'
      · exact absurd hi hj
      · exact ih acc hmem' fun k hk => huniq k (List.mem_cons_of_mem j hk)

/-- With pairwise-distinct dates, `date_to_index` recovers the index of any row. -/
theorem date_to_index_eq (rows : List Row)
    (hd : (rows.map (·.date)).Pairwise (· ≠ ·)) (i : ℕ) (r : Row)
    (hr : rows[i]? = some r) :
    date_to_index rows r.date = some i := by
  unfold date_to_index
  have hmatch : (rows[i]?).map (·.date) = some r.date := by rw [hr]; rfl
  apply dtoi_foldl_found rows r.date i hmatch
  · exact List.mem_range.mpr (lt_length_of_getElemOpt hr)
  · intro j _ hj
    have hj' : (rows.map (·.date))[j]? = some r.date := by
      rw [List.getElem?_map]
      exact hj
    have hi' : (rows.map (·.date))[i]? = some r.date := by
      rw [List.getElem?_map]
      exact hmatch
    exact pairwise_ne_getElemOpt hd hj' hi'

/-- Ghost-index facts about a recorded trade: its exit bar index is in range,
dates its `exit_date`, and its pnl is set. -/
def TradeIdxFacts (rows : List Row) (t : MATrade) : Prop :=
  t.exit_idx < rows.length ∧ (rows[t.exit_idx]?).map (·.date) = t.exit_date ∧
  t.pnl.isSome = true

/-- Index invariant of the executor loop relative to the remaining signals:
trade exit indices are strictly increasing, in range, and below every remaining
signal's bar; an open position was signalled strictly before every remaining
signal and its entry bar exists. -/
def ExecIdxInv (rows : List Row) (st : ExecState) (remaining : List MASignal) : Prop :=
  (st.trades.map (·.exit_idx)).Pairwise (· < ·) ∧
  (∀ t ∈ st.trades, TradeIdxFacts rows t) ∧
  (∀ t ∈ st.trades, ∀ s ∈ remaining, t.exit_idx ≤ s.idx) ∧
  (∀ p, st.current_position = some p →
    p.sig_idx + 1 < rows.length ∧
    (∀ t ∈ st.trades, t.exit_idx ≤ p.sig_idx) ∧
    (∀ s ∈ remaining, p.sig_idx < s.idx))

theorem ExecIdxInv.weaken {rows : List Row} {st : ExecState} {sig : MASignal}
    {rest : List MASignal} (h : ExecIdxInv rows st (sig :: rest)) :
    ExecIdxInv rows st rest := by
  obtain ⟨h1, h2, h3, h4⟩ := h
  refine ⟨h1, h2, ?_, ?_⟩
  · intro t ht s hs
    exact h3 t ht s (List.mem_cons_of_mem sig hs)
  · intro p hp
    exact ⟨(h4 p hp).1, (h4 p hp).2.1,
      fun s hs => (h4 p hp).2.2 s (List.mem_cons_of_mem sig hs)⟩

theorem execStep_idx_inv (cfg : MAConfig) (rows : List Row) (st : ExecState)
    (sig : MASignal) (rest : List MASignal)
    (hd : (rows.map (·.date)).Pairwise (· ≠ ·))
    (hsig : SigConsistent rows sig)
    (horder : ∀ s ∈ rest, sig.idx < s.idx)
    (hinv : ExecIdxInv rows st (sig :: rest)) :
    ExecIdxInv rows (execStep cfg rows st sig) rest := by
  obtain ⟨hr, hrd⟩ := Option.map_eq_some'.mp hsig
  have hdx : date_to_index rows sig.date = some sig.idx := by
    have := date_to_index_eq rows hd sig.idx hr hrd.1
    rwa [hrd.2] at this
  obtain ⟨h1, h2, h3, h4⟩ := hinv
  unfold execStep
  split
  · rename_i hcond
    rw [hdx]
    dsimp only
    cases hnx : rows[sig.idx + 1]? with
    | none => exact ExecIdxInv.weaken ⟨h1, h2, h3, h4⟩
    | some nextRow =>
      dsimp only
      split <;> split <;>
        refine ⟨h1, h2, fun t ht s hs => h3 t ht s (List.mem_cons_of_mem sig hs), ?_⟩ <;>
        intro p hp <;>
        first
          | (simp only [Option.some.injEq] at hp
             subst hp
             exact ⟨lt_length_of_getElemOpt hnx,
               fun t ht => h3 t ht sig (List.mem_cons_self sig rest), horder⟩)
          | (rw [hcond.2] at hp
             exact absurd hp (by simp))
  · split
    · rename_i hcond
      cases hcp : st.current_position with
      | none => exact ExecIdxInv.weaken ⟨h1, h2, h3, h4⟩
      | some pos =>
        try dsimp only
        rw [hdx]
        try dsimp only
        cases hnx : rows[sig.idx + 1]? with
        | none => exact ExecIdxInv.weaken ⟨h1, h2, h3, h4⟩
        | some nextRow =>
          try dsimp only
          obtain ⟨hp1, hp2, hp3⟩ := h4 pos hcp
          have hposlt : pos.sig_idx < sig.idx := hp3 sig (List.mem_cons_self sig rest)
          refine ⟨?_, ?_, ?_, ?_⟩
          · rw [List.map_append]
            refine List.pairwise_append.mpr ⟨h1, by simp, ?_⟩
            intro a ha b hb
            simp only [List.map_cons, List.map_nil, List.mem_singleton] at hb
            subst hb
            obtain ⟨t, ht, hta⟩ := List.mem_map.mp ha
            subst hta
            try dsimp only
            have := hp2 t ht
            omega
          · intro t ht
            rcases List.mem_append.mp ht with hmem | hmem
            · exact h2 t hmem
            · rcases List.mem_singleton.mp hmem with rfl
              refine ⟨lt_length_of_getElemOpt hnx, ?_, rfl⟩
              rw [hnx]
              rfl
          · intro t ht s hs
            rcases List.mem_append.mp ht with hmem | hmem
            · have h1' := hp2 t hmem
              have h2' := horder s hs
              omega
            · rcases List.mem_singleton.mp hmem with rfl
              have := horder s hs
              try dsimp only
              omega
          · intro p hp
            simp at hp
    · exact ExecIdxInv.weaken ⟨h1, h2, h3, h4⟩

theorem foldl_idx_inv (cfg : MAConfig) (rows : List Row)
    (hd : (rows.map (·.date)).Pairwise (· ≠ ·)) :
    ∀ (sigs : List MASignal) (st : ExecState),
      ((sigs.map (·.idx)).Pairwise (· < ·)) →
      (∀ s ∈ sigs, SigConsistent rows s) →
      ExecIdxInv rows st sigs →
      ExecIdxInv rows (sigs.foldl (execStep cfg rows) st) [] := by
  intro sigs
  induction sigs with
  | nil => intro st _ _ h; exact h
  | cons sig rest ih =>
    intro st hpw hcons hinv
    simp only [List.map_cons, List.pairwise_cons] at hpw
    have horder : ∀ s ∈ rest, sig.idx < s.idx := by
      intro s hs
      exact hpw.1 s.idx (List.mem_map_of_mem (·.idx) hs)
    simp only [List.foldl_cons]
    exact ih _ hpw.2 (fun s hs => hcons s (List.mem_cons_of_mem sig hs))
      (execStep_idx_inv cfg rows st sig rest hd
        (hcons sig (List.mem_cons_self sig rest)) horder hinv)

/-- Exit-index facts for the full executor output, including the forced final
closure (whose exit index `len-1` lies strictly above all earlier exits). -/
theorem execute_trades_facts (cfg : MAConfig) (rows : List Row)
    (hd : (rows.map (·.date)).Pairwise (· ≠ ·)) (sigs : List MASignal)
    (hpw : (sigs.map (·.idx)).Pairwise (· < ·))
    (hcons : ∀ s ∈ sigs, SigConsistent rows s) :
    ((execute_trades cfg rows sigs).map (·.exit_idx)).Pairwise (· < ·) ∧
    (∀ t ∈ execute_trades cfg rows sigs, TradeIdxFacts rows t) := by
  have hinit : ExecIdxInv rows (initExec cfg) sigs := by
    refine ⟨by simp [initExec], by simp [initExec], by simp [initExec], ?_⟩
    intro p hp
    simp [initExec] at hp
  have hfin := foldl_idx_inv cfg rows hd sigs (initExec cfg) hpw hcons hinit
  obtain ⟨f1, f2, _, f4⟩ := hfin
  unfold execute_trades forced_close
  cases hcp : ((sigs.foldl (execStep cfg rows) (initExec cfg)).current_position) with
  | none => exact ⟨f1, f2⟩
  | some pos =>
    obtain ⟨hp1, hp2, _⟩ := f4 pos hcp
    cases hlast : rows.getLast? with
    | none => exact ⟨f1, f2⟩
    | some lastRow =>
      have hlen : 0 < rows.length := by
        cases rows with
        | nil => simp at hlast
        | cons a l => exact Nat.succ_pos _
      have hglast : rows[rows.length - 1]? = some lastRow := by
        rw [← List.getLast?_eq_getElem?]
        exact hlast
      constructor
      · rw [List.map_append]
        refine List.pairwise_append.mpr ⟨f1, by simp, ?_⟩
        intro a ha b hb
        simp only [List.map_cons, List.map_nil, List.mem_singleton] at hb
        subst hb
        obtain ⟨t, ht, rfl⟩ := List.mem_map.mp ha
        have := hp2 t ht
        show t.exit_idx < rows.length - 1
        omega
      · intro t ht
        rcases List.mem_append.mp ht with hmem | hmem
        · exact f2 t hmem
        · rcases List.mem_singleton.mp hmem with rfl
          refine ⟨show rows.length - 1 < rows.length by omega, ?_, rfl⟩
          show (rows[rows.length - 1]?).map (·.date) = some lastRow.date
          rw [hglast]
          rfl

theorem pnl_lookup_foldl_general (d : ℕ) :
    ∀ (ts : List MATrade) (acc : Option ℚ),
      ts.foldl (fun acc t => if t.exit_date = some d ∧ t.pnl.isSome then t.pnl else acc)
          acc =
        match ts.foldl
            (fun acc t => if t.exit_date = some d ∧ t.pnl.isSome then t.pnl else acc)
            none with
        | some v => some v
        | none => acc := by
  intro ts
  induction ts with
  | nil => intro acc; rfl
  | cons u ts ih =>
    intro acc
    simp only [List.foldl_cons]
    rw [ih (if u.exit_date = some d ∧ u.pnl.isSome then u.pnl else acc),
      ih (if u.exit_date = some d ∧ u.pnl.isSome then u.pnl else none)]
    generalize ts.foldl
      (fun acc t => if t.exit_date = some d ∧ t.pnl.isSome then t.pnl else acc) none = X
    cases X with
    | some v => rfl
    | none =>
      by_cases hc : u.exit_date = some d ∧ u.pnl.isSome
      · rw [if_pos hc, if_pos hc]
        obtain ⟨v, hv⟩ := Option.isSome_iff_exists.mp hc.2
        rw [hv]
      · rw [if_neg hc, if_neg hc]

theorem pnl_lookup_cons (u : MATrade) (ts : List MATrade) (d : ℕ) :
    pnl_lookup (u :: ts) d =
      match pnl_lookup ts d with
      | some v => some v
      | none => if u.exit_date = some d ∧ u.pnl.isSome then u.pnl else none := by
  show (ts.foldl _ (if u.exit_date = some d ∧ u.pnl.isSome then u.pnl else none)) = _
  exact pnl_lookup_foldl_general d ts _

theorem pnl_lookup_none_of (d : ℕ) :
    ∀ (ts : List MATrade), (∀ t ∈ ts, ¬(t.exit_date = some d ∧ t.pnl.isSome)) →
      pnl_lookup ts d = none := by
  intro ts
  induction ts with
  | nil => intro _; rfl
  | cons u ts ih =>
    intro h
    rw [pnl_lookup_cons]
    rw [ih fun t ht => h t (List.mem_cons_of_mem u ht)]
    rw [if_neg (h u (List.mem_cons_self u ts))]

theorem pnl_lookup_mem (d : ℕ) (q : ℚ) :
    ∀ (ts : List MATrade), pnl_lookup ts d = some q →
      ∃ t ∈ ts, t.exit_date = some d ∧ t.pnl = some q := by
  intro ts
  induction ts with
  | nil => intro h; exact absurd h (by simp [pnl_lookup])
  | cons u ts ih =>
    intro h
    rw [pnl_lookup_cons] at h
    cases hlk : pnl_lookup ts d with
    | some v =>
      rw [hlk] at h
      cases h
      obtain ⟨t, ht, hp⟩ := ih hlk
      exact ⟨t, List.mem_cons_of_mem u ht, hp⟩
    | none =>
      rw [hlk] at h
      by_cases hc : u.exit_date = some d ∧ u.pnl.isSome
      · rw [if_pos hc] at h
        exact ⟨u, List.mem_cons_self u ts, hc.1, h⟩
      · rw [if_neg hc] at h
        exact absurd h (by simp)

theorem equityGo_cons (trades : List MATrade) (r : Row) (rs : List Row) (e : ℚ) :
    equityGo trades (r :: rs) e =
      (r.date, e + ((pnl_lookup trades r.date).getD 0)) ::
        equityGo trades rs (e + ((pnl_lookup trades r.date).getD 0)) := by
  have hstep : equityGo trades (r :: rs) e =
      (r.date, (match pnl_lookup trades r.date with | some v => e + v | none => e)) ::
        equityGo trades rs
          (match pnl_lookup trades r.date with | some v => e + v | none => e) := rfl
  rw [hstep]
  cases h : pnl_lookup trades r.date with
  | some v => simp [h]
  | none => simp [h]

theorem equityGo_chain (trades : List MATrade) :
    ∀ (rows : List Row) (e : ℚ),
      (equityGo trades rows e).Chain'
        (fun a b => b.2 = a.2 + ((pnl_lookup trades b.1).getD 0)) := by
  intro rows
  induction rows with
  | nil => intro e; simp [equityGo]
  | cons r rs ih =>
    intro e
    rw [equityGo_cons]
    refine List.chain'_cons'.mpr ⟨?_, ih _⟩
    intro y hy
    cases rs with
    | nil => simp [equityGo] at hy
    | cons r2 rs2 =>
      rw [equityGo_cons] at hy
      simp only [List.head?_cons, Option.mem_def, Option.some.injEq] at hy
      subst hy
      simp

/-- Total of the per-date pnl-dict lookups over a date list. -/
def sumLookup (trades : List MATrade) (dates : List ℕ) : ℚ :=
  (dates.map (fun d => ((pnl_lookup trades d).getD 0))).sum

theorem equityGo_getLast (trades : List MATrade) :
    ∀ (rows : List Row) (e : ℚ), rows ≠ [] →
      ((equityGo trades rows e).getLast?).map Prod.snd =
        some (e + sumLookup trades (rows.map (·.date))) := by
  intro rows
  induction rows with
  | nil => intro e h; exact absurd rfl h
  | cons r rs ih =>
    intro e _
    rw [equityGo_cons]
    cases rs with
    | nil =>
      simp [equityGo, sumLookup]
    | cons r2 rs2 =>
      rw [equityGo_cons, List.getLast?_cons_cons, ← equityGo_cons]
      rw [ih (e + ((pnl_lookup trades r.date).getD 0)) (by simp)]
      simp only [sumLookup, List.map_cons, List.sum_cons, Option.some.injEq]
      ring

theorem count_eq_one_of_pairwise_ne :
    ∀ {l : List ℕ}, l.Pairwise (· ≠ ·) → ∀ {d : ℕ}, d ∈ l → l.count d = 1 := by
  intro l
  induction l with
  | nil => intro _ d hd; simp at hd
  | cons a l ih =>
    intro hp d hd
    rw [List.pairwise_cons] at hp
    rcases List.mem_cons.mp hd with rfl | hmem
    · rw [List.count_cons_self]
      have hnot : d ∉ l := fun hc => hp.1 d hc rfl
      rw [List.count_eq_zero_of_not_mem hnot]
    · have hne : d ≠ a := by
        rintro rfl
        exact hp.1 d hmem rfl
      rw [List.count_cons_of_ne hne]
      exact ih hp.2 hmem

theorem sumLookup_cons_trade (t : MATrade) (ts : List MATrade) (dt : ℕ) (v : ℚ)
    (hexit : t.exit_date = some dt) (hpnl : t.pnl = some v)
    (hnone : pnl_lookup ts dt = none) :
    ∀ (dates : List ℕ),
      sumLookup (t :: ts) dates = sumLookup ts dates + (dates.count dt : ℚ) * v := by
  intro dates
  induction dates with
  | nil => simp [sumLookup]
  | cons d ds ih =>
    simp only [sumLookup, List.map_cons, List.sum_cons] at ih ⊢
    by_cases hd : d = dt
    · subst hd
      rw [pnl_lookup_cons, hnone]
      rw [if_pos ⟨hexit, by simp [hpnl]⟩, hpnl]
      rw [List.count_cons_self]
      rw [ih]
      simp only [Option.getD_some, Option.getD_none]
      push_cast
      ring
    · have hlk : pnl_lookup (t :: ts) d = pnl_lookup ts d := by
        rw [pnl_lookup_cons]
        cases hc : pnl_lookup ts d with
        | some v2 => rfl
        | none =>
          rw [if_neg]
          rintro ⟨h1, _⟩
          rw [hexit] at h1
          exact hd (Option.some.inj h1).symm
      rw [hlk, ih, List.count_cons_of_ne (show dt ≠ d from fun hc => hd hc.symm)]
      ring

theorem sumLookup_eq_sum_pnl :
    ∀ (trades : List MATrade) (dates : List ℕ),
      dates.Pairwise (· ≠ ·) →
      ((trades.map (·.exit_date)).Pairwise (· ≠ ·)) →
      (∀ t ∈ trades, ∃ dt, t.exit_date = some dt ∧ dt ∈ dates) →
      (∀ t ∈ trades, t.pnl.isSome = true) →
      sumLookup trades dates = (trades.filterMap (·.pnl)).sum := by
  intro trades
  induction trades with
  | nil =>
    intro dates h1 h2 h3 h4
    clear h1 h2 h3 h4
    simp only [List.filterMap_nil, List.sum_nil]
    induction dates with
    | nil => rfl
    | cons d ds ihd =>
      simp only [sumLookup, List.map_cons, List.sum_cons] at ihd ⊢
      rw [ihd]
      have h0 : (pnl_lookup ([] : List MATrade) d) = none := rfl
      rw [h0]
      simp
  | cons t ts ih =>
    intro dates hpdates hpexit hmem hpnl
    obtain ⟨dt, hexit, hdt⟩ := hmem t (List.mem_cons_self t ts)
    obtain ⟨v, hv⟩ := Option.isSome_iff_exists.mp (hpnl t (List.mem_cons_self t ts))
    rw [List.map_cons, List.pairwise_cons] at hpexit
    have hnone : pnl_lookup ts dt = none := by
      apply pnl_lookup_none_of
      intro u hu hc
      refine hpexit.1 u.exit_date (List.mem_map_of_mem (·.exit_date) hu) ?_
      rw [hexit, hc.1]
    rw [sumLookup_cons_trade t ts dt v hexit hv hnone dates]
    rw [count_eq_one_of_pairwise_ne hpdates hdt]
    rw [ih dates hpdates hpexit.2
      (fun u hu => hmem u (List.mem_cons_of_mem t hu))
      (fun u hu => hpnl u (List.mem_cons_of_mem t hu))]
    rw [List.filterMap_cons, hv]
    simp
    ring

/-- C7: for every successful analysis run over a strictly-dated price series,
the equity curve has one point per series date; consecutive equity values can
differ only when some trade exits on that date, by exactly that trade's
realized PnL; and the final equity equals `initial_capital` plus the sum of
the PnL of all (closed) trades. -/
theorem C7_equity_curve (cfg : MAConfig) (rows : List Row) (symbol : String)
    (df : List Row) (res : MAResults)
    (hmono : (rows.map (·.date)).Pairwise (· < ·))
    (h : run_analysis cfg rows symbol = some (df, res)) :
    res.equity_curve.map Prod.fst = rows.map (·.date) ∧
    res.equity_curve.Chain' (fun a b => a.2 ≠ b.2 →
      ∃ t ∈ res.trades, t.exit_date = some b.1 ∧ t.pnl = some (b.2 - a.2)) ∧
    (rows ≠ [] →
      (res.equity_curve.getLast?).map Prod.snd =
        some (cfg.initial_capital + (res.trades.filterMap (·.pnl)).sum)) := by
  obtain ⟨hdf, hsig, htr, hal, hmet, heq⟩ := run_analysis_inv cfg rows symbol df res h
  have hddf : df.map (·.date) = rows.map (·.date) := by
    rw [hdf]; exact setIndicators_map_date cfg rows
  have hne : (df.map (·.date)).Pairwise (· ≠ ·) := by
    rw [hddf]; exact hmono.imp (fun hlt => Nat.ne_of_lt hlt)
  have hsf := generate_signals_facts cfg df
  have hef := execute_trades_facts cfg df hne (generate_signals cfg df) hsf.1
    (fun s hs => (hsf.2 s hs).2)
  set trades0 := execute_trades cfg df (generate_signals cfg df) with htrades0
  have hmemd : ∀ t ∈ trades0, ∃ dt, t.exit_date = some dt ∧ dt ∈ df.map (·.date) := by
    intro t ht
    obtain ⟨hlt, hdate, _⟩ := hef.2 t ht
    cases hx : (df.map (·.date))[t.exit_idx]? with
    | none =>
      have hlt' : t.exit_idx < (df.map (·.date)).length := by simpa using hlt
      rw [List.getElem?_eq_getElem hlt'] at hx
      simp at hx
    | some dt =>
      have hx' := hx
      rw [List.getElem?_map, hdate] at hx'
      exact ⟨dt, hx', mem_of_getElemOpt hx⟩
  have hpnl : ∀ t ∈ trades0, t.pnl.isSome = true := fun t ht => (hef.2 t ht).2.2
  have hpairwise_exit : ((trades0.map (·.exit_date)).Pairwise (· ≠ ·)) := by
    have hp : trades0.Pairwise (fun t u => t.exit_idx < u.exit_idx) :=
      List.pairwise_map.mp hef.1
    rw [List.pairwise_map]
    refine List.Pairwise.imp_of_mem ?_ hp
    intro t u hmt hmu hlt hcontra
    obtain ⟨dt, ht1, _⟩ := hmemd t hmt
    obtain ⟨du, hu1, _⟩ := hmemd u hmu
    have hgt : (df.map (·.date))[t.exit_idx]? = some dt := by
      rw [List.getElem?_map, (hef.2 t hmt).2.1, ht1]
    have hdu_eq : du = dt := by
      have h1 : u.exit_date = some dt := by rw [← hcontra]; exact ht1
      exact Option.some.inj (hu1.symm.trans h1)
    have hgu : (df.map (·.date))[u.exit_idx]? = some dt := by
      rw [List.getElem?_map, (hef.2 u hmu).2.1, hu1, hdu_eq]
    have := pairwise_ne_getElemOpt hne hgt hgu
    omega
  have hpart1 : res.equity_curve.map Prod.fst = rows.map (·.date) := by
    rw [heq]
    unfold generate_equity_curve
    rw [equityGo_map_fst]
    exact hddf
  refine ⟨hpart1, ?_, ?_⟩
  · rw [heq]
    unfold generate_equity_curve
    refine (equityGo_chain trades0 df cfg.initial_capital).imp ?_
    intro a b hR hneq
    cases hlk : pnl_lookup trades0 b.1 with
    | none =>
      rw [hlk] at hR
      simp at hR
      exact absurd hR.symm hneq
    | some q =>
      rw [hlk] at hR
      obtain ⟨t, ht, h1, h2⟩ := pnl_lookup_mem b.1 q trades0 hlk
      refine ⟨t, ?_, h1, ?_⟩
      · rw [htr]
        exact ((List.perm_insertionSort tradeDesc trades0).mem_iff).mpr ht
      · rw [h2]
        congr 1
        rw [hR]
        simp
  · intro hrows_ne
    rw [heq]
    unfold generate_equity_curve
    have hdfne : df ≠ [] := by
      intro hc
      apply hrows_ne
      rw [hc] at hddf
      exact List.map_eq_nil_iff.mp hddf.symm
    rw [equityGo_getLast trades0 df cfg.initial_capital hdfne]
    congr 1
    rw [sumLookup_eq_sum_pnl trades0 (df.map (·.date)) hne hpairwise_exit hmemd hpnl]
    congr 1
    rw [htr]
    exact (List.Perm.sum_eq
      ((List.perm_insertionSort tradeDesc trades0).filterMap (·.pnl))).symm

/-- Boolean strict-ascent check used to discharge date hypotheses on concrete
frames. -/
def chainLtB : List ℕ → Bool
  | [] => true
  | [_] => true
  | a :: b :: l => decide (a < b) && chainLtB (b :: l)

theorem pairwise_lt_of_chainLtB : ∀ (l : List ℕ), chainLtB l = true → l.Pairwise (· < ·) := by
  intro l
  induction l with
  | nil => intro _; simp
  | cons a l ih =>
    cases l with
    | nil => intro _; simp
    | cons b l2 =>
      intro h
      simp only [chainLtB, Bool.and_eq_true, decide_eq_true_eq] at h
      have htail := ih (by simpa [chainLtB] using h.2)
      refine List.pairwise_cons.mpr ⟨?_, htail⟩
      intro c hc
      rcases List.mem_cons.mp hc with rfl | hc2
      · exact h.1
      · exact lt_trans h.1 ((List.pairwise_cons.mp htail).1 c hc2)

/-- A 100-bar frame: flat at 100, a spike to 110 at bar 10 (primary entry), a
drop to 95 at bar 11 (trend-break exit), then flat at 95. -/
def rowsW : List Row :=
  (List.range 100).map fun i =>
    mkRow i (if i < 10 then 100 else if i = 10 then 110 else 95)

/-- Optimizer configuration for the concrete runs: small capital (2000), SMA,
ATR period 1. -/
def optW : MAOptimizer := { initial_capital := 2000, atr_period := 1, ma_type := .sma }

/-- The engine configuration the optimizer builds for the pair (1, 3). -/
def cfgW : MAConfig := engineConfig optW 1 3

def emptyResults : MAResults :=
  { symbol := "", start_date := 0, end_date := 0, total_days := 0, trades := [],
    signals := [], mean_reversion_alerts := [],
    performance_metrics :=
      { total_trades := 0, winning_trades := 0, losing_trades := 0, win_rate := 0,
        total_pnl := 0, total_return_percent := 0, avg_trade_duration := 0,
        max_drawdown := 0, sharpe := 0 },
    equity_curve := [] }

def dfW : List Row := ((run_analysis cfgW rowsW "W").getD ([], emptyResults)).1

def resW : MAResults := ((run_analysis cfgW rowsW "W").getD ([], emptyResults)).2

theorem C10_result_ordering_witness :
    resW.trades.Sorted tradeDesc ∧ resW.signals.Sorted sigDesc ∧
    resW.mean_reversion_alerts.Sorted alertDesc ∧
    resW.equity_curve.map Prod.fst = rowsW.map (·.date) ∧
    ((rowsW.map (·.date)).Chain' (· < ·) →
      (resW.equity_curve.map Prod.fst).Chain' (· < ·)) :=
  C10_result_ordering cfgW rowsW "W" dfW resW (by with_unfolding_all rfl)

theorem C7_equity_curve_witness :
    resW.equity_curve.map Prod.fst = rowsW.map (·.date) ∧
    resW.equity_curve.Chain' (fun a b => a.2 ≠ b.2 →
      ∃ t ∈ resW.trades, t.exit_date = some b.1 ∧ t.pnl = some (b.2 - a.2)) ∧
    (rowsW ≠ [] →
      (resW.equity_curve.getLast?).map Prod.snd =
        some (cfgW.initial_capital + (resW.trades.filterMap (·.pnl)).sum)) :=
  C7_equity_curve cfgW rowsW "W" dfW resW
    (pairwise_lt_of_chainLtB _ (by with_unfolding_all decide))
    (by with_unfolding_all rfl)

/-- Frame for the C9 counterexample: three bars, no indicator columns. -/
def rows9 : List Row := [mkRow 0 10, mkRow 1 11, mkRow 2 12]

/-- C9 counterexample: `run_analysis` succeeds on `rows9` but hands back a
frame different from the input — the call wrote the `ma_21`/`ma_50`/`atr`
columns into the caller's frame in place, so the frame is not left unchanged. -/
theorem C9_counterexample :
    ((run_analysis cfgS rows9 "X").map Prod.fst).isSome = true ∧
    (run_analysis cfgS rows9 "X").map Prod.fst ≠ some rows9 := by
  with_unfolding_all decide

/-- C9 amended: a successful `run_analysis` call leaves every OHLCV value of
the caller's frame unchanged (same dates, opens, highs, lows, closes,
volumes), although it does mutate the frame by writing the three indicator
columns; repeated evaluations therefore read identical OHLCV input. -/
theorem C9_ohlcv_preserved (cfg : MAConfig) (rows : List Row) (symbol : String)
    (df : List Row) (res : MAResults)
    (h : run_analysis cfg rows symbol = some (df, res)) :
    df.map rawOf = rows.map rawOf := by
  obtain ⟨hdf, _, _, _, _, _⟩ := run_analysis_inv cfg rows symbol df res h
  rw [hdf]
  exact setIndicators_map_raw cfg rows

theorem C9_ohlcv_preserved_witness : dfW.map rawOf = rowsW.map rawOf :=
  C9_ohlcv_preserved cfgW rowsW "W" dfW resW (by with_unfolding_all rfl)

theorem emaAux_length (a : ℚ) : ∀ (xs : List ℚ) (p : ℚ), (emaAux a p xs).length = xs.length := by
  intro xs
  induction xs with
  | nil => intro p; rfl
  | cons x xs ih => intro p; simp [emaAux, ih]

theorem calculate_ema_length (p : ℕ) (xs : List ℚ) :
    (calculate_ema p xs).length = xs.length := by
  cases xs with
  | nil => rfl
  | cons x xs => simp [calculate_ema, emaAux_length]

theorem calculate_ma_length (t : MAType) (p : ℕ) (xs : List ℚ) :
    (calculate_ma t p xs).length = xs.length := by
  cases t with
  | sma => simp [calculate_ma, calculate_sma]
  | ema => simp [calculate_ma, calculate_ema_length]

theorem trAux_length : ∀ (rs : List Row) (pc : ℚ), (trAux pc rs).length = rs.length := by
  intro rs
  induction rs with
  | nil => intro pc; rfl
  | cons r rs ih => intro pc; simp [trAux, ih]

theorem true_ranges_length (rs : List Row) : (true_ranges rs).length = rs.length := by
  cases rs with
  | nil => rfl
  | cons r rs => simp [true_ranges, trAux_length]

theorem calculate_atr_length (p : ℕ) (rs : List Row) :
    (calculate_atr p rs).length = rs.length := by
  simp [calculate_atr, calculate_ema_length, true_ranges_length]

theorem setCols_length : ∀ (rs : List Row) (xs ys zs : List (Option ℚ)),
    (setCols rs xs ys zs).length = rs.length := by
  intro rs
  induction rs with
  | nil => intro xs ys zs; cases xs <;> cases ys <;> cases zs <;> rfl
  | cons r rs ih =>
    intro xs ys zs
    cases xs with
    | nil => rfl
    | cons x xs =>
      cases ys with
      | nil => rfl
      | cons y ys =>
        cases zs with
        | nil => rfl
        | cons z zs => simp [setCols, ih]

theorem trAux_setCols : ∀ (rs : List Row) (xs ys zs : List (Option ℚ)) (pc : ℚ),
    trAux pc (setCols rs xs ys zs) = trAux pc rs := by
  intro rs
  induction rs with
  | nil => intro xs ys zs pc; cases xs <;> cases ys <;> cases zs <;> rfl
  | cons r rs ih =>
    intro xs ys zs pc
    cases xs with
    | nil => rfl
    | cons x xs =>
      cases ys with
      | nil => rfl
      | cons y ys =>
        cases zs with
        | nil => rfl
        | cons z zs => simp [setCols, trAux, ih]

theorem true_ranges_setCols (rs : List Row) (xs ys zs : List (Option ℚ)) :
    true_ranges (setCols rs xs ys zs) = true_ranges rs := by
  cases rs with
  | nil => cases xs <;> cases ys <;> cases zs <;> rfl
  | cons r rs =>
    cases xs with
    | nil => rfl
    | cons x xs =>
      cases ys with
      | nil => rfl
      | cons y ys =>
        cases zs with
        | nil => rfl
        | cons z zs => simp [setCols, true_ranges, trAux_setCols]

theorem setCols_setCols :
    ∀ (rs : List Row) (as1 bs1 cs1 xs ys zs : List (Option ℚ)),
      rs.length ≤ xs.length → rs.length ≤ ys.length → rs.length ≤ zs.length →
      setCols (setCols rs as1 bs1 cs1) xs ys zs = setCols rs xs ys zs := by
  intro rs
  induction rs with
  | nil => intro as1 bs1 cs1 xs ys zs _ _ _; cases as1 <;> cases bs1 <;> cases cs1 <;> rfl
  | cons r rs ih =>
    intro as1 bs1 cs1 xs ys zs hx hy hz
    cases xs with
    | nil => simp at hx
    | cons x xs =>
      cases ys with
      | nil => simp at hy
      | cons y ys =>
        cases zs with
        | nil => simp at hz
        | cons z zs =>
          cases as1 with
          | nil => rfl
          | cons a as1 =>
            cases bs1 with
            | nil => rfl
            | cons b bs1 =>
              cases cs1 with
              | nil => rfl
              | cons c cs1 =>
                show ({ r with ma_21 := x, ma_50 := y, atr := z } ::
                    setCols (setCols rs as1 bs1 cs1) xs ys zs) = _
                rw [ih as1 bs1 cs1 xs ys zs (by simpa using hx) (by simpa using hy)
                  (by simpa using hz)]
                rfl

theorem setIndicators_setCols (cfg : MAConfig) (rows : List Row)
    (a b c : List (Option ℚ)) :
    setIndicators cfg (setCols rows a b c) = setIndicators cfg rows := by
  unfold setIndicators
  have hclose : (setCols rows a b c).map (·.close) = rows.map (·.close) :=
    setCols_map (·.close) (fun _ _ _ _ => rfl) rows a b c
  rw [hclose]
  unfold calculate_atr
  rw [true_ranges_setCols]
  apply setCols_setCols
  · simp [calculate_ma_length]
  · simp [calculate_ma_length]
  · simp [calculate_ema_length, true_ranges_length]

theorem run_analysis_setCols (cfg : MAConfig) (rows : List Row) (symbol : String)
    (a b c : List (Option ℚ)) :
    run_analysis cfg (setCols rows a b c) symbol = run_analysis cfg rows symbol := by
  unfold run_analysis
  rw [setCols_length, setIndicators_setCols]

/-- Model of `rows'` is the pristine frame `rows` with some indicator columns written
over it (in-place mutation never touches anything else). -/
def FrameEquiv (rows rows' : List Row) : Prop :=
  ∃ a b c, rows' = setCols rows a b c

theorem setCols_nil_cols : ∀ (rows : List Row), setCols rows [] [] [] = rows := by
  intro rows
  cases rows <;> rfl

theorem frameEquiv_self (rows : List Row) : FrameEquiv rows rows :=
  ⟨[], [], [], (setCols_nil_cols rows).symm⟩

/-- Re-running a pair test on a frame whose indicator columns were overwritten
by an earlier run gives the same result as on the pristine frame, and keeps the
frame in the overwritten-columns family. -/
theorem test_ma_pair_equiv (opt : MAOptimizer) (symbol : String) (f s : ℕ)
    (rows rows' : List Row) (h : FrameEquiv rows rows') :
    (test_ma_pair opt rows' symbol f s).2 = (test_ma_pair opt rows symbol f s).2 ∧
    FrameEquiv rows (test_ma_pair opt rows' symbol f s).1 := by
  obtain ⟨a, b, c, rfl⟩ := h
  unfold test_ma_pair
  constructor
  · rw [run_analysis_setCols]
    cases hra : run_analysis (engineConfig opt f s) rows symbol with
    | none => rfl
    | some pr =>
      obtain ⟨df0, res0⟩ := pr
      rfl
  · rw [run_analysis_setCols]
    cases hra : run_analysis (engineConfig opt f s) rows symbol with
    | none => exact ⟨a, b, c, rfl⟩
    | some pr =>
      obtain ⟨df0, res0⟩ := pr
      have hdf := (run_analysis_inv (engineConfig opt f s) rows symbol df0 res0 hra).1
      dsimp only
      split
      · exact ⟨_, _, _, by rw [hdf]; rfl⟩
      · exact ⟨_, _, _, by rw [hdf]; rfl⟩

theorem sweepGo_spec (opt : MAOptimizer) (symbol : String) (rows : List Row) :
    ∀ (pairs : List (ℕ × ℕ)) (rows' : List Row) (acc : List MAOptimizationResult),
      FrameEquiv rows rows' →
      (sweepGo opt symbol pairs rows' acc).2 =
        acc ++ pairs.filterMap (fun p => (test_ma_pair opt rows symbol p.1 p.2).2) := by
  intro pairs
  induction pairs with
  | nil => intro rows' acc _; simp [sweepGo]
  | cons p ps ih =>
    intro rows' acc hequiv
    obtain ⟨hres, hframe⟩ := test_ma_pair_equiv opt symbol p.1 p.2 rows rows' hequiv
    unfold sweepGo
    cases htest : test_ma_pair opt rows' symbol p.1 p.2 with
    | mk frame2 res? =>
      rw [htest] at hres hframe
      dsimp only at hres hframe
      cases res? with
      | some r =>
        dsimp only
        rw [ih frame2 (acc ++ [r]) hframe, List.filterMap_cons, ← hres]
        simp
      | none =>
        dsimp only
        rw [ih frame2 acc hframe, List.filterMap_cons, ← hres]

/-- The generated pair grid is exactly the claimed set. -/
theorem generate_ma_pairs_mem (fast_range slow_range : ℕ × ℕ) (min_distance : ℤ)
    (f s : ℕ) :
    (f, s) ∈ generate_ma_pairs fast_range slow_range min_distance ↔
      (fast_range.1 ≤ f ∧ f ≤ fast_range.2 ∧ slow_range.1 ≤ s ∧ s ≤ slow_range.2 ∧
        min_distance ≤ (s : ℤ) - (f : ℤ)) := by
  unfold generate_ma_pairs
  simp only [List.mem_flatMap, List.mem_filterMap, List.mem_range'_1]
  constructor
  · rintro ⟨a, ⟨ha1, ha2⟩, u, ⟨⟨hu1, hu2⟩, hif⟩⟩
    by_cases hd : min_distance ≤ (u : ℤ) - (a : ℤ)
    · rw [if_pos hd] at hif
      obtain ⟨rfl, rfl⟩ := Prod.mk.injEq .. ▸ Option.some.inj hif
      refine ⟨ha1, by omega, hu1, by omega, hd⟩
    · rw [if_neg hd] at hif
      exact absurd hif (by simp)
  · rintro ⟨h1, h2, h3, h4, h5⟩
    exact ⟨f, ⟨h1, by omega⟩, s, ⟨⟨h3, by omega⟩, by rw [if_pos h5]⟩⟩

/-- C8: on every successful optimization run, the evaluated pairs are exactly
the grid points with `slow - fast >= min_distance` inside the two ranges;
`all_results` is the descending-by-return stable sort of the per-pair results
over the pristine frame (pairs whose evaluation raised or produced no trades
contribute nothing, and the sweep still covers every pair); and `top_5_pairs`
is the first `min(5, |all_results|)` entries of that sorted list. -/
theorem C8_optimizer_grid (opt : MAOptimizer) (rows : List Row) (symbol : String)
    (days : ℕ) (fast_ma_range slow_ma_range : ℕ × ℕ) (min_distance : ℤ)
    (rows' : List Row) (summary : OptimizationSummary)
    (h : optimize_ma_pairs opt rows symbol days fast_ma_range slow_ma_range min_distance
      = .ok (rows', summary)) :
    (∀ f s : ℕ, (f, s) ∈ generate_ma_pairs fast_ma_range slow_ma_range min_distance ↔
      (fast_ma_range.1 ≤ f ∧ f ≤ fast_ma_range.2 ∧ slow_ma_range.1 ≤ s ∧
        s ≤ slow_ma_range.2 ∧ min_distance ≤ (s : ℤ) - (f : ℤ))) ∧
    summary.all_results = List.insertionSort resDesc
      ((generate_ma_pairs fast_ma_range slow_ma_range min_distance).filterMap
        (fun p => (test_ma_pair opt rows symbol p.1 p.2).2)) ∧
    summary.all_results.Sorted resDesc ∧
    summary.top_5_pairs = summary.all_results.take 5 ∧
    summary.top_5_pairs.length = min 5 summary.all_results.length := by
  unfold optimize_ma_pairs at h
  by_cases hlen : rows.length < 100
  · rw [if_pos hlen] at h
    exact absurd h (by simp)
  · rw [if_neg hlen] at h
    dsimp only at h
    cases hres : List.insertionSort resDesc
        (sweepGo opt symbol (generate_ma_pairs fast_ma_range slow_ma_range min_distance)
          rows []).2 with
    | nil =>
      rw [hres] at h
      exact absurd h (by simp)
    | cons best restl =>
      rw [hres] at h
      simp only [Except.ok.injEq, Prod.mk.injEq] at h
      obtain ⟨hframe, hsum⟩ := h
      have hsweep : (sweepGo opt symbol
          (generate_ma_pairs fast_ma_range slow_ma_range min_distance) rows []).2 =
          (generate_ma_pairs fast_ma_range slow_ma_range min_distance).filterMap
            (fun p => (test_ma_pair opt rows symbol p.1 p.2).2) := by
        rw [sweepGo_spec opt symbol rows _ rows [] (frameEquiv_self rows)]
        exact List.nil_append _
      have hall : summary.all_results = best :: restl := by rw [← hsum]
      have hall2 : summary.all_results = List.insertionSort resDesc
          ((generate_ma_pairs fast_ma_range slow_ma_range min_distance).filterMap
            (fun p => (test_ma_pair opt rows symbol p.1 p.2).2)) := by
        rw [hall, ← hres, hsweep]
      refine ⟨fun f s => generate_ma_pairs_mem fast_ma_range slow_ma_range min_distance f s,
        hall2, ?_, ?_, ?_⟩
      · rw [hall2]
        exact List.sorted_insertionSort resDesc _
      · rw [← hsum]
      · rw [← hsum]
        simp [List.length_take]
        omega

def emptySummary : OptimizationSummary :=
  { symbol := "", best_pair := none, top_5_pairs := [], all_results := [],
    parameters_used :=
      { fast_ma_range := (0, 0), slow_ma_range := (0, 0), min_distance := 0, days := 0,
        atr_period := 0, atr_multiplier := 0, ma_type := .ema } }

def sweptW : List Row :=
  (((optimize_ma_pairs optW rowsW "W" 365 (1, 1) (3, 3) 2).toOption).getD
    ([], emptySummary)).1

def summaryW : OptimizationSummary :=
  (((optimize_ma_pairs optW rowsW "W" 365 (1, 1) (3, 3) 2).toOption).getD
    ([], emptySummary)).2

theorem C8_optimizer_grid_witness :
    (∀ f s : ℕ, (f, s) ∈ generate_ma_pairs (1, 1) (3, 3) 2 ↔
      (1 ≤ f ∧ f ≤ 1 ∧ 3 ≤ s ∧ s ≤ 3 ∧ (2 : ℤ) ≤ (s : ℤ) - (f : ℤ))) ∧
    summaryW.all_results = List.insertionSort resDesc
      ((generate_ma_pairs (1, 1) (3, 3) 2).filterMap
        (fun p => (test_ma_pair optW rowsW "W" p.1 p.2).2)) ∧
    summaryW.all_results.Sorted resDesc ∧
    summaryW.top_5_pairs = summaryW.all_results.take 5 ∧
    summaryW.top_5_pairs.length = min 5 summaryW.all_results.length :=
  C8_optimizer_grid optW rowsW "W" 365 (1, 1) (3, 3) 2 sweptW summaryW
    (by with_unfolding_all rfl)
